import Mathlib

/-!
# Block pool allocator of LWB (core/lib/memb.c)

Shallow embedding of the two fixed-size block pools of memb.c: the local pool
(struct memb, native addresses) and the external pool (struct membx, 32-bit
offsets into the external memory).

Machine model. The code is built for the CC430 (an MSP430 core, platform/cc430):
int, unsigned short and data pointers are 16 bits wide, uint32_t is 32 bits wide.
Every C integer is a natural number, and each operation that can leave its type
is reduced modulo 2^16 or 2^32 at the place where the C code does so.

Memory model. A pointer to a byte array (the occupancy bitmap count, the block
region mem of the local pool) is a total map from byte offsets to byte values
0..255 (the bit pattern of the char).

Loops. The goto loop of the allocators and the do-while loop of membx_get_next are
run with an explicit fuel; the value none means that the fuel ran out before the
function returned. The functions named with the ending log are the same code with
a record of the block indices whose bitmap byte is read or written.
-/

namespace LWB

/-- Modelled from the spec: the declaration of struct memb (lib/memb.h) is not among
the sources. The fields are the ones memb.c accesses: size (block_size), num
(block_count) and last (last_probe) are unsigned short, count is the occupancy
bitmap (one bit per block), mem is the address of the block region; data is the
content of the block region, which memb_init fills with zeros. -/
structure memb where
  size : Nat
  num : Nat
  last : Nat
  count : Nat → Nat
  mem : Nat
  data : Nat → Nat

/-- Modelled from the spec: the declaration of struct membx (lib/memb.h) is not among
the sources. The fields are the ones memb.c accesses: size, num, last and n_alloc
(live_count) are unsigned short, count is the occupancy bitmap, mem is the 32-bit
offset of the reserved region in the external memory. -/
structure membx where
  size : Nat
  num : Nat
  last : Nat
  n_alloc : Nat
  count : Nat → Nat
  mem : Nat

/-- The C call memset(buf, 0, n): the first n bytes become zero. -/
def memset0 (buf : Nat → Nat) (n : Nat) : Nat → Nat :=
  fun k => if k < n then 0 else buf k

/-- The mask (1 << (i & 0x07)), held in a uint8_t. -/
def bit_mask (i : Nat) : Nat := (1 <<< (i &&& 0x07)) % 256

/-- The test (count[i >> 3] & bit) != 0 of the occupancy bit of block i. -/
def bit_is_set (count : Nat → Nat) (i : Nat) : Bool :=
  (count (i >>> 3) &&& bit_mask i) != 0

/-- The assignment count[i >> 3] |= bit. -/
def set_bit (count : Nat → Nat) (i : Nat) : Nat → Nat :=
  Function.update count (i >>> 3) ((count (i >>> 3) ||| bit_mask i) % 256)

/-- The assignment count[i >> 3] &= ~(1 << (i & 0x07)); the complement is taken
in a 16-bit int and the result is stored in a char. -/
def clear_bit (count : Nat → Nat) (i : Nat) : Nat → Nat :=
  Function.update count (i >>> 3)
    ((count (i >>> 3) &&& (0xFFFF ^^^ (1 <<< (i &&& 0x07)))) % 256)

/-- The value NULL of the local pool. -/
def NULL : Nat := 0

/-- The function memb_init: zero the bitmap bytes and the block region. Both
lengths are computed in 16-bit unsigned arithmetic. -/
def memb_init (m : memb) : memb :=
  { m with
    count := memset0 m.count (((m.num + 7) % 65536) >>> 3)
    data := memset0 m.data ((m.size * m.num) % 65536) }

/-- The function membx_init. The collaborator fram_alloc (not among the sources) is
a parameter mapping the requested size to the offset it returns, and so is the
constant FRAM_ALLOC_ERROR. The second component tells whether DEBUG_PRINT_ERROR
was reached. -/
def membx_init (fram_alloc : Nat → Nat) (FRAM_ALLOC_ERROR : Nat) (m : membx) :
    membx × Bool :=
  let m1 : membx := { m with count := memset0 m.count (((m.num + 7) % 65536) >>> 3) }
  let m2 : membx := { m1 with mem := fram_alloc ((m1.size * m1.num) % 65536) % 4294967296 }
  (m2, decide (FRAM_ALLOC_ERROR = m2.mem))

/-- The loop at the label find_free of memb_alloc, from the loop test on, with i and
limit the two local variables. The result is the new pool and the returned
pointer; none when the fuel is used up. -/
def memb_find_free (m : memb) : Nat → Nat → Nat → Option (memb × Nat)
  | 0, _, _ => none
  | fuel + 1, i, limit =>
    if i < limit then
      if m.count (i >>> 3) &&& bit_mask i = 0 then
        some ({ m with count := set_bit m.count i, last := i },
          (m.mem + (i * m.size) % 65536) % 65536)
      else memb_find_free m fuel ((i + 1) % 65536) limit
    else if m.last ≠ 0 ∧ i = m.num then memb_find_free m fuel 0 m.last
    else some ({ m with last := 0 }, NULL)

/-- The function memb_alloc: i = m->last, limit = m->num, then the loop. -/
def memb_alloc (fuel : Nat) (m : memb) : Option (memb × Nat) :=
  memb_find_free m fuel m.last m.num

/-- The loop at the label find_free of membx_alloc. The constant XMEM_INVALID_ADDR
(not among the sources) is the parameter inv. -/
def membx_find_free (inv : Nat) (m : membx) : Nat → Nat → Nat → Option (membx × Nat)
  | 0, _, _ => none
  | fuel + 1, i, limit =>
    if i < limit then
      if m.count (i >>> 3) &&& bit_mask i = 0 then
        some ({ m with count := set_bit m.count i, last := i,
                       n_alloc := (m.n_alloc + 1) % 65536 },
          (m.mem + ((i % 4294967296) * (m.size % 4294967296)) % 4294967296) % 4294967296)
      else membx_find_free inv m fuel ((i + 1) % 65536) limit
    else if m.last ≠ 0 ∧ i = m.num then membx_find_free inv m fuel 0 m.last
    else some ({ m with last := 0 }, inv)

/-- The function membx_alloc; inv is the constant XMEM_INVALID_ADDR. -/
def membx_alloc (inv : Nat) (fuel : Nat) (m : membx) : Option (membx × Nat) :=
  membx_find_free inv m fuel m.last m.num

/-- The function memb_free. The pointer difference is taken modulo 2^16 and divided
as an unsigned int by size; the quotient is stored in an unsigned short. A
division by zero has no defined result: none. -/
def memb_free (m : memb) (ptr : Nat) : Option memb :=
  if m.size = 0 then none
  else
    let i := (((ptr % 65536 + (65536 - m.mem % 65536)) % 65536) / m.size) % 65536
    if i < m.num then some { m with count := clear_bit m.count i }
    else some m

/-- The function membx_free. The difference of the two uint32_t values is taken
modulo 2^32; the quotient is stored in an unsigned short, which keeps its low 16
bits. A division by zero has no defined result: none. -/
def membx_free (m : membx) (ptr : Nat) : Option membx :=
  if m.size = 0 then none
  else
    let i := (((ptr % 4294967296 + (4294967296 - m.mem % 4294967296)) % 4294967296)
      / m.size) % 65536
    if i < m.num ∧ m.count (i >>> 3) &&& (1 <<< (i &&& 0x07)) ≠ 0 then
      some { m with count := clear_bit m.count i, n_alloc := (m.n_alloc + 65535) % 65536 }
    else some m

/-- The do-while loop of membx_get_next, entered at the top of its body with the
loop variable i; none when the fuel is used up. -/
def membx_get_next_loop (inv : Nat) (m : membx) (start_idx : Nat) : Nat → Nat → Option Nat
  | 0, _ => none
  | fuel + 1, i =>
    if m.count (i >>> 3) &&& bit_mask i ≠ 0 then
      some ((m.mem + ((i % 4294967296) * (m.size % 4294967296)) % 4294967296) % 4294967296)
    else
      let i1 := (i + 1) % 65536
      let i2 := if i1 = m.num then 0 else i1
      if i2 ≠ start_idx then membx_get_next_loop inv m start_idx fuel i2
      else some inv

/-- The function membx_get_next; it writes to no field of the pool, which is handed
back as it was received. -/
def membx_get_next (inv : Nat) (fuel : Nat) (m : membx) (start_idx : Nat) :
    membx × Option Nat :=
  let s := if start_idx ≥ m.num then 0 else start_idx
  (m, membx_get_next_loop inv m s fuel s)

/-- The function memb_inmemb; the product num * size is an unsigned 16-bit product
and the end pointer is a 16-bit address. It writes to no field of the pool. -/
def memb_inmemb (m : memb) (ptr : Nat) : memb × Bool :=
  (m, decide (ptr ≥ m.mem) && decide (ptr < (m.mem + (m.num * m.size) % 65536) % 65536))

/-! ## Specification-level notions -/

/-- The number of set occupancy bits at the block indices below n. -/
def live_bits (count : Nat → Nat) : Nat → Nat
  | 0 => 0
  | n + 1 => live_bits count n + (if bit_is_set count n then 1 else 0)

/-- The circular order last, last + 1, ..., num - 1, 0, ..., last - 1 of the search. -/
def circ_order (last num : Nat) : List Nat :=
  List.range' last (num - last) ++ List.range last

/-- The first index of the circular order whose occupancy bit is clear. -/
def first_clear (count : Nat → Nat) (last num : Nat) : Option Nat :=
  (circ_order last num).find? (fun i => !bit_is_set count i)

/-- The index search shared by the two allocators, as a function of the bitmap
alone: some (some j) when block j is chosen, some none when the search gives up,
none when the fuel is used up. -/
def search_idx (count : Nat → Nat) (last num : Nat) : Nat → Nat → Nat → Option (Option Nat)
  | 0, _, _ => none
  | fuel + 1, i, limit =>
    if i < limit then
      if bit_is_set count i then search_idx count last num fuel (i + 1) limit
      else some (some i)
    else if last ≠ 0 ∧ i = num then search_idx count last num fuel 0 last
    else some none

/-- The outcome of memb_alloc once its search has ended: block j is marked and its
address returned, or the cursor is reset and NULL returned. -/
def memb_result (m : memb) : Option Nat → memb × Nat
  | some j => ({ m with count := set_bit m.count j, last := j },
      (m.mem + (j * m.size) % 65536) % 65536)
  | none => ({ m with last := 0 }, NULL)

/-- The outcome of membx_alloc once its search has ended. -/
def membx_result (inv : Nat) (m : membx) : Option Nat → membx × Nat
  | some j => ({ m with count := set_bit m.count j, last := j,
                        n_alloc := (m.n_alloc + 1) % 65536 },
      (m.mem + ((j % 4294967296) * (m.size % 4294967296)) % 4294967296) % 4294967296)
  | none => ({ m with last := 0 }, inv)

/-- Consecutive calls of memb_alloc with no other call in between: the pool after the
calls and the pointers they returned, in call order. -/
def memb_alloc_seq (fuel : Nat) : Nat → memb → Option (memb × List Nat)
  | 0, m => some (m, [])
  | k + 1, m =>
    match memb_alloc fuel m with
    | none => none
    | some (m1, r) =>
      match memb_alloc_seq fuel k m1 with
      | none => none
      | some (m2, rs) => some (m2, r :: rs)

/-- Consecutive calls of membx_alloc with no other call in between. -/
def membx_alloc_seq (inv fuel : Nat) : Nat → membx → Option (membx × List Nat)
  | 0, m => some (m, [])
  | k + 1, m =>
    match membx_alloc inv fuel m with
    | none => none
    | some (m1, r) =>
      match membx_alloc_seq inv fuel k m1 with
      | none => none
      | some (m2, rs) => some (m2, r :: rs)

/-- The block index memb_free computes from a pointer (the local variable i). -/
def memb_free_idx (m : memb) (ptr : Nat) : Nat :=
  (((ptr % 65536 + (65536 - m.mem % 65536)) % 65536) / m.size) % 65536

/-- The block index membx_free computes from an offset (the local variable i). -/
def membx_free_idx (m : membx) (ptr : Nat) : Nat :=
  (((ptr % 4294967296 + (4294967296 - m.mem % 4294967296)) % 4294967296) / m.size) % 65536

/-- The first index of the circular order s, ..., num - 1, 0, ..., s - 1 whose
occupancy bit is set. -/
def first_set (count : Nat → Nat) (s num : Nat) : Option Nat :=
  (circ_order s num).find? (fun i => bit_is_set count i)

/-- The do-while loop of membx_get_next with a record of the block indices whose
occupancy bit it tests, in test order. -/
def membx_get_next_loop_log (inv : Nat) (m : membx) (start_idx : Nat) :
    Nat → Nat → Option (Nat × List Nat)
  | 0, _ => none
  | fuel + 1, i =>
    if m.count (i >>> 3) &&& bit_mask i ≠ 0 then
      some ((m.mem + ((i % 4294967296) * (m.size % 4294967296)) % 4294967296) % 4294967296,
        [i])
    else
      let i1 := (i + 1) % 65536
      let i2 := if i1 = m.num then 0 else i1
      if i2 ≠ start_idx then
        (membx_get_next_loop_log inv m start_idx fuel i2).map (fun p => (p.1, i :: p.2))
      else some (inv, [i])

/-- The function membx_get_next with the record of tested indices. -/
def membx_get_next_log (inv : Nat) (fuel : Nat) (m : membx) (start_idx : Nat) :
    Option (Nat × List Nat) :=
  let s := if start_idx ≥ m.num then 0 else start_idx
  membx_get_next_loop_log inv m s fuel s

/-- The calls of the iteration over live blocks: k calls of membx_get_next, the first
with start index s, each further one with the index of the block just returned plus
one (the index is recovered from the offset as membx_free does); the offsets returned,
in call order. -/
def membx_iterate (inv fuel : Nat) (m : membx) : Nat → Nat → Option (List Nat)
  | 0, _ => some []
  | k + 1, s =>
    match (membx_get_next inv fuel m s).2 with
    | none => none
    | some r =>
      (membx_iterate inv fuel m k ((membx_free_idx m r + 1) % 65536)).map (fun rs => r :: rs)

/-- The allocated block indices of a pool, in ascending order. -/
def live_indices (count : Nat → Nat) (num : Nat) : List Nat :=
  (List.range num).filter (fun i => bit_is_set count i)

/-- The loop of memb_alloc with a record of the block indices whose occupancy bit it
tests, in test order. -/
def memb_find_free_log (m : memb) : Nat → Nat → Nat → Option ((memb × Nat) × List Nat)
  | 0, _, _ => none
  | fuel + 1, i, limit =>
    if i < limit then
      if m.count (i >>> 3) &&& bit_mask i = 0 then
        some (({ m with count := set_bit m.count i, last := i },
          (m.mem + (i * m.size) % 65536) % 65536), [i])
      else (memb_find_free_log m fuel ((i + 1) % 65536) limit).map (fun p => (p.1, i :: p.2))
    else if m.last ≠ 0 ∧ i = m.num then memb_find_free_log m fuel 0 m.last
    else some (({ m with last := 0 }, NULL), [])

/-- The function memb_alloc with the record of tested indices. -/
def memb_alloc_log (fuel : Nat) (m : memb) : Option ((memb × Nat) × List Nat) :=
  memb_find_free_log m fuel m.last m.num

/-- The loop of membx_alloc with a record of the block indices whose occupancy bit it
tests, in test order. -/
def membx_find_free_log (inv : Nat) (m : membx) :
    Nat → Nat → Nat → Option ((membx × Nat) × List Nat)
  | 0, _, _ => none
  | fuel + 1, i, limit =>
    if i < limit then
      if m.count (i >>> 3) &&& bit_mask i = 0 then
        some (({ m with count := set_bit m.count i, last := i,
                        n_alloc := (m.n_alloc + 1) % 65536 },
          (m.mem + ((i % 4294967296) * (m.size % 4294967296)) % 4294967296) % 4294967296),
          [i])
      else
        (membx_find_free_log inv m fuel ((i + 1) % 65536) limit).map
          (fun p => (p.1, i :: p.2))
    else if m.last ≠ 0 ∧ i = m.num then membx_find_free_log inv m fuel 0 m.last
    else some (({ m with last := 0 }, inv), [])

/-- The function membx_alloc with the record of tested indices. -/
def membx_alloc_log (inv fuel : Nat) (m : membx) : Option ((membx × Nat) × List Nat) :=
  membx_find_free_log inv m fuel m.last m.num

/-- The indices tested by the index search shared by the two allocators. -/
def search_tested (count : Nat → Nat) (last num : Nat) : Nat → Nat → Nat → Option (List Nat)
  | 0, _, _ => none
  | fuel + 1, i, limit =>
    if i < limit then
      if bit_is_set count i then
        (search_tested count last num fuel (i + 1) limit).map (fun t => i :: t)
      else some [i]
    else if last ≠ 0 ∧ i = num then search_tested count last num fuel 0 last
    else some []

/-- The function memb_free with a record of the block indices whose bitmap byte
count[i >> 3] it reads or writes: the byte is touched only under the guard i < num. -/
def memb_free_log (m : memb) (ptr : Nat) : Option (memb × List Nat) :=
  if m.size = 0 then none
  else
    let i := (((ptr % 65536 + (65536 - m.mem % 65536)) % 65536) / m.size) % 65536
    if i < m.num then some ({ m with count := clear_bit m.count i }, [i])
    else some (m, [])

/-- The function membx_free with a record of the block indices whose bitmap byte it reads
or writes: the second operand of && is evaluated only when i < num holds. -/
def membx_free_log (m : membx) (ptr : Nat) : Option (membx × List Nat) :=
  if m.size = 0 then none
  else
    let i := (((ptr % 4294967296 + (4294967296 - m.mem % 4294967296)) % 4294967296)
      / m.size) % 65536
    if i < m.num then
      if m.count (i >>> 3) &&& (1 <<< (i &&& 0x07)) ≠ 0 then
        some ({ m with count := clear_bit m.count i,
                       n_alloc := (m.n_alloc + 65535) % 65536 }, [i])
      else some (m, [i])
    else some (m, [])

/-! ## Concrete pools -/

/-- A local pool of three blocks of four bytes at address 0x1C00, block 1 allocated,
cursor at 1. -/
def pool_a : memb :=
  { size := 4, num := 3, last := 1, count := fun k => if k = 0 then 2 else 0,
    mem := 7168, data := fun _ => 0 }

/-- An external pool of three blocks of four bytes at offset 4096, block 1 allocated,
cursor at 1, one live allocation. -/
def xpool_a : membx :=
  { size := 4, num := 3, last := 1, n_alloc := 1,
    count := fun k => if k = 0 then 2 else 0, mem := 4096 }

/-- A full local pool: three blocks, all allocated, cursor at 2. -/
def pool_full : memb :=
  { size := 4, num := 3, last := 2, count := fun k => if k = 0 then 7 else 0,
    mem := 7168, data := fun _ => 0 }

/-- A full external pool: three blocks, all allocated, cursor at 2. -/
def xpool_full : membx :=
  { size := 4, num := 3, last := 2, n_alloc := 3,
    count := fun k => if k = 0 then 7 else 0, mem := 4096 }

/-- An external pool of three blocks of four bytes at offset 262144, all allocated. -/
def xpool_high : membx :=
  { size := 4, num := 3, last := 2, n_alloc := 3,
    count := fun k => if k = 0 then 7 else 0, mem := 262144 }

/-- An external pool of ten blocks of four bytes at offset 4096 with the blocks 2, 5 and 7
allocated. -/
def xpool_b : membx :=
  { size := 4, num := 10, last := 7, n_alloc := 3,
    count := fun k => if k = 0 then 164 else 0, mem := 4096 }

/-- A local pool of three blocks of four bytes at address 0x1C00 before memb_init: the
bitmap bytes hold 255, the cursor is 0. -/
def pool_c : memb :=
  { size := 4, num := 3, last := 0, count := fun _ => 255, mem := 7168, data := fun _ => 7 }

/-- An external pool of three blocks of four bytes before membx_init: the bitmap bytes
hold 255, the cursor is 0. -/
def xpool_c : membx :=
  { size := 4, num := 3, last := 0, n_alloc := 0, count := fun _ => 255, mem := 0 }

/-! ## Bit-level lemmas -/

theorem shr3_eq (i : Nat) : i >>> 3 = i / 8 := by
  rw [Nat.shiftRight_eq_div_pow]

theorem and7_eq (i : Nat) : i &&& 0x07 = i % 8 :=
  Nat.and_pow_two_sub_one_eq_mod i 3

theorem bit_mask_eq (i : Nat) : bit_mask i = 2 ^ (i % 8) := by
  unfold bit_mask
  rw [and7_eq, Nat.one_shiftLeft]
  have h : i % 8 < 8 := Nat.mod_lt _ (by decide)
  have h2 : 2 ^ (i % 8) < 2 ^ 8 := Nat.pow_lt_pow_right (by decide) h
  exact Nat.mod_eq_of_lt h2

theorem and_two_pow_eq_zero (x k : Nat) : x &&& 2 ^ k = 0 ↔ x.testBit k = false := by
  constructor
  · intro h
    have := congrArg (fun y => y.testBit k) h
    simpa [Nat.testBit_two_pow_self] using this
  · intro h
    apply Nat.eq_of_testBit_eq
    intro i
    rw [Nat.testBit_and, Nat.testBit_two_pow, Nat.zero_testBit]
    by_cases hk : k = i
    · subst hk; simp [h]
    · simp [hk]

theorem bit_is_set_eq (count : Nat → Nat) (i : Nat) :
    bit_is_set count i = (count (i / 8)).testBit (i % 8) := by
  unfold bit_is_set
  rw [shr3_eq, bit_mask_eq]
  cases h : (count (i / 8)).testBit (i % 8)
  · have := (and_two_pow_eq_zero _ _).2 h
    simp [this]
  · have : count (i / 8) &&& 2 ^ (i % 8) ≠ 0 := by
      intro h0
      rw [(and_two_pow_eq_zero _ _).1 h0] at h
      cases h
    simp [this]

theorem mask_test_eq_zero (count : Nat → Nat) (i : Nat) :
    count (i >>> 3) &&& bit_mask i = 0 ↔ bit_is_set count i = false := by
  unfold bit_is_set; simp

theorem mask_test_int (count : Nat → Nat) (i : Nat) :
    count (i >>> 3) &&& (1 <<< (i &&& 0x07)) ≠ 0 ↔ bit_is_set count i = true := by
  have h : (1 <<< (i &&& 0x07)) = bit_mask i := by
    rw [bit_mask_eq, and7_eq, Nat.one_shiftLeft]
  rw [h]; unfold bit_is_set; simp

theorem idx_eq_iff (k j : Nat) : k = j ↔ k / 8 = j / 8 ∧ k % 8 = j % 8 := by
  constructor
  · rintro rfl; exact ⟨rfl, rfl⟩
  · rintro ⟨h1, h2⟩; omega

theorem bit_is_set_set_bit (count : Nat → Nat) (j k : Nat) :
    bit_is_set (set_bit count j) k = (decide (k = j) || bit_is_set count k) := by
  rw [bit_is_set_eq, bit_is_set_eq]
  unfold set_bit
  rw [shr3_eq, bit_mask_eq]
  by_cases h8 : k / 8 = j / 8
  · rw [h8, Function.update_same]
    have hk : k % 8 < 8 := Nat.mod_lt _ (by decide)
    have e : (256 : Nat) = 2 ^ 8 := rfl
    rw [e, Nat.testBit_mod_two_pow, Nat.testBit_or, Nat.testBit_two_pow]
    by_cases hm : k % 8 = j % 8
    · have : k = j := (idx_eq_iff k j).2 ⟨h8, hm⟩
      have hj : j % 8 < 8 := Nat.mod_lt _ (by decide)
      simp [hj, this]
    · have hne : ¬ k = j := fun e2 => hm (by rw [e2])
      have hm2 : ¬ j % 8 = k % 8 := fun e2 => hm e2.symm
      simp [hk, hm2, hne]
  · rw [Function.update_noteq h8]
    have hne : ¬ k = j := fun e2 => h8 (by rw [e2])
    simp [hne]

theorem clear_mask_testBit (r i : Nat) (hi : i < 8) :
    (0xFFFF ^^^ (1 <<< r)).testBit i = !decide (i = r) := by
  have e : (0xFFFF : Nat) = 2 ^ 16 - 1 := rfl
  rw [Nat.one_shiftLeft, Nat.testBit_xor, e, Nat.testBit_two_pow_sub_one, Nat.testBit_two_pow]
  have : i < 16 := by omega
  by_cases h : r = i
  · subst h; simp [this]
  · have h2 : ¬ i = r := fun e2 => h e2.symm
    simp [this, h, h2]

theorem bit_is_set_clear_bit (count : Nat → Nat) (j k : Nat) :
    bit_is_set (clear_bit count j) k = (!decide (k = j) && bit_is_set count k) := by
  rw [bit_is_set_eq, bit_is_set_eq]
  unfold clear_bit
  rw [shr3_eq, and7_eq]
  by_cases h8 : k / 8 = j / 8
  · rw [h8, Function.update_same]
    have hk : k % 8 < 8 := Nat.mod_lt _ (by decide)
    have e : (256 : Nat) = 2 ^ 8 := rfl
    rw [e, Nat.testBit_mod_two_pow, Nat.testBit_and, clear_mask_testBit _ _ hk]
    by_cases hm : k % 8 = j % 8
    · have : k = j := (idx_eq_iff k j).2 ⟨h8, hm⟩
      have hj : j % 8 < 8 := Nat.mod_lt _ (by decide)
      simp [hj, this]
    · have hne : ¬ k = j := fun e2 => hm (by rw [e2])
      simp [hk, hm, hne, Bool.and_comm]
  · rw [Function.update_noteq h8]
    have hne : ¬ k = j := fun e2 => h8 (by rw [e2])
    simp [hne]

/-! ## The index search -/

theorem mem_circ_order (l N k : Nat) (hl : l ≤ N) : k ∈ circ_order l N ↔ k < N := by
  unfold circ_order
  rw [List.mem_append, List.mem_range'_1, List.mem_range]
  omega

theorem first_clear_eq_none (c : Nat → Nat) (l N : Nat) (hl : l ≤ N) :
    first_clear c l N = none ↔ ∀ k, k < N → bit_is_set c k = true := by
  unfold first_clear
  rw [List.find?_eq_none]
  constructor
  · intro h k hk
    have := h k ((mem_circ_order l N k hl).2 hk)
    simpa using this
  · intro h k hk
    have := h k ((mem_circ_order l N k hl).1 hk)
    simp [this]

theorem first_clear_some (c : Nat → Nat) (l N j : Nat) (hl : l ≤ N)
    (h : first_clear c l N = some j) : j < N ∧ bit_is_set c j = false := by
  unfold first_clear at h
  refine ⟨(mem_circ_order l N j hl).1 (List.mem_of_find?_eq_some h), ?_⟩
  have := List.find?_some h
  simpa using this

theorem first_clear_isSome (c : Nat → Nat) (l N : Nat) (hl : l ≤ N)
    (h : ∃ k, k < N ∧ bit_is_set c k = false) : ∃ j, first_clear c l N = some j := by
  cases hf : first_clear c l N with
  | some j => exact ⟨j, rfl⟩
  | none =>
    obtain ⟨k, hk, hc⟩ := h
    have := (first_clear_eq_none c l N hl).1 hf k hk
    rw [hc] at this; cases this

theorem search_idx_scan (c : Nat → Nat) (l N : Nat) :
    ∀ (n fuel i : Nat), n + 1 ≤ fuel →
      search_idx c l N fuel i (i + n) =
        match (List.range' i n).find? (fun k => !bit_is_set c k) with
        | some j => some (some j)
        | none => search_idx c l N (fuel - n) (i + n) (i + n) := by
  intro n
  induction n with
  | zero => intro fuel i _; simp
  | succ n ih =>
    intro fuel i hf
    obtain ⟨f, rfl⟩ : ∃ f, fuel = f + 1 := ⟨fuel - 1, by omega⟩
    have hlt : i < i + (n + 1) := by omega
    rw [List.range'_succ]
    cases hb : bit_is_set c i
    · simp [search_idx, hlt, hb]
    · have e1 : i + (n + 1) = (i + 1) + n := by omega
      have e2 : f + 1 - (n + 1) = f - n := by omega
      rw [List.find?_cons_of_neg _ (by simp [hb])]
      rw [e2, e1, ← ih f (i + 1) (by omega)]
      rw [← e1]
      simp [search_idx, hlt, hb]

theorem search_idx_exit (c : Nat → Nat) (l N f i : Nat) :
    search_idx c l N (f + 1) i i =
      if l ≠ 0 ∧ i = N then search_idx c l N f 0 l else some none := by
  simp [search_idx]

/-- With enough fuel the search returns, and its answer is the first clear index of the
circular order (none when the search gives up). -/
theorem search_idx_eq (c : Nat → Nat) (l N fuel : Nat) (hl : l ≤ N) (hf : N + 2 ≤ fuel)
    (h : l < N ∨ ∃ k, k < N ∧ bit_is_set c k = false) :
    search_idx c l N fuel l N = some (first_clear c l N) := by
  have hN : N = l + (N - l) := by omega
  have step1 := search_idx_scan c l N (N - l) fuel l (by omega)
  rw [← hN] at step1
  rw [step1]
  unfold first_clear circ_order
  rw [List.find?_append]
  cases hA : (List.range' l (N - l)).find? (fun k => !bit_is_set c k) with
  | some j => simp
  | none =>
    simp only [Option.or]
    obtain ⟨f, hff⟩ : ∃ f, fuel - (N - l) = f + 1 := ⟨fuel - (N - l) - 1, by omega⟩
    rw [hff, search_idx_exit]
    by_cases h0 : l = 0
    · subst h0; simp
    · have step2 := search_idx_scan c l N l f 0 (by omega)
      simp only [Nat.zero_add] at step2
      simp only [h0, ne_eq, not_false_eq_true, and_self, if_true]
      rw [step2, List.range_eq_range']
      cases hB : (List.range' 0 l).find? (fun k => !bit_is_set c k) with
      | some j => simp
      | none =>
        simp only
        obtain ⟨g, hg⟩ : ∃ g, f - l = g + 1 := ⟨f - l - 1, by omega⟩
        rw [hg, search_idx_exit]
        have hlN : l ≠ N := by
          intro e
          rcases h with h | ⟨k, hk, hc⟩
          · omega
          · rw [List.find?_eq_none] at hB
            have := hB k (by rw [List.mem_range'_1]; omega)
            simp [hc] at this
        simp [hlN]

/-! ## The allocators run the index search -/

theorem memb_find_free_eq (m : memb) (hl : m.last < 65536) :
    ∀ (fuel i limit : Nat), limit < 65536 →
      memb_find_free m fuel i limit =
        (search_idx m.count m.last m.num fuel i limit).map (memb_result m) := by
  intro fuel
  induction fuel with
  | zero => intro i limit _; simp [memb_find_free, search_idx]
  | succ f ih =>
    intro i limit hlim
    unfold memb_find_free search_idx
    by_cases hlt : i < limit
    · have hi : (i + 1) % 65536 = i + 1 := Nat.mod_eq_of_lt (by omega)
      cases hb : bit_is_set m.count i
      · have := (mask_test_eq_zero m.count i).2 hb
        simp [hlt, this, memb_result]
      · have : ¬ (m.count (i >>> 3) &&& bit_mask i = 0) := by
          intro h0
          rw [(mask_test_eq_zero m.count i).1 h0] at hb
          cases hb
        simp only [hlt, this, if_true, if_false, hi]
        rw [ih (i + 1) limit hlim]
    · by_cases hc : m.last ≠ 0 ∧ i = m.num
      · rw [if_neg hlt, if_pos hc, if_neg hlt, if_pos hc]
        exact ih 0 m.last hl
      · rw [if_neg hlt, if_neg hc, if_neg hlt, if_neg hc]
        rfl

theorem membx_find_free_eq (inv : Nat) (m : membx) (hl : m.last < 65536) :
    ∀ (fuel i limit : Nat), limit < 65536 →
      membx_find_free inv m fuel i limit =
        (search_idx m.count m.last m.num fuel i limit).map (membx_result inv m) := by
  intro fuel
  induction fuel with
  | zero => intro i limit _; simp [membx_find_free, search_idx]
  | succ f ih =>
    intro i limit hlim
    unfold membx_find_free search_idx
    by_cases hlt : i < limit
    · have hi : (i + 1) % 65536 = i + 1 := Nat.mod_eq_of_lt (by omega)
      cases hb : bit_is_set m.count i
      · have := (mask_test_eq_zero m.count i).2 hb
        simp [hlt, this, membx_result]
      · have : ¬ (m.count (i >>> 3) &&& bit_mask i = 0) := by
          intro h0
          rw [(mask_test_eq_zero m.count i).1 h0] at hb
          cases hb
        simp only [hlt, this, if_true, if_false, hi]
        rw [ih (i + 1) limit hlim]
    · by_cases hc : m.last ≠ 0 ∧ i = m.num
      · rw [if_neg hlt, if_pos hc, if_neg hlt, if_pos hc]
        exact ih 0 m.last hl
      · rw [if_neg hlt, if_neg hc, if_neg hlt, if_neg hc]
        rfl

/-- With the cursor at most num and enough fuel, memb_alloc returns, and its outcome is
the one of the first clear index of the circular order. -/
theorem memb_alloc_eq (m : memb) (fuel : Nat) (hn : m.num < 65536) (hl : m.last ≤ m.num)
    (hf : m.num + 2 ≤ fuel)
    (h : m.last < m.num ∨ ∃ k, k < m.num ∧ bit_is_set m.count k = false) :
    memb_alloc fuel m = some (memb_result m (first_clear m.count m.last m.num)) := by
  unfold memb_alloc
  rw [memb_find_free_eq m (by omega) fuel m.last m.num hn,
    search_idx_eq m.count m.last m.num fuel hl hf h]
  rfl

theorem membx_alloc_eq (inv : Nat) (m : membx) (fuel : Nat) (hn : m.num < 65536)
    (hl : m.last ≤ m.num) (hf : m.num + 2 ≤ fuel)
    (h : m.last < m.num ∨ ∃ k, k < m.num ∧ bit_is_set m.count k = false) :
    membx_alloc inv fuel m = some (membx_result inv m (first_clear m.count m.last m.num)) := by
  unfold membx_alloc
  rw [membx_find_free_eq inv m (by omega) fuel m.last m.num hn,
    search_idx_eq m.count m.last m.num fuel hl hf h]
  rfl

theorem addr16_eq (b j sz : Nat) : (b + (j * sz) % 65536) % 65536 = (b + j * sz) % 65536 :=
  Nat.add_mod_mod b (j * sz) 65536

theorem addr32_eq (b j sz : Nat) :
    (b + ((j % 4294967296) * (sz % 4294967296)) % 4294967296) % 4294967296
      = (b + j * sz) % 4294967296 := by
  rw [← Nat.mul_mod, Nat.add_mod_mod]

theorem block_addr_lt (b j sz N B : Nat) (hj : j < N) (h : b + N * sz < B) :
    b + j * sz < B := by
  have : j * sz ≤ N * sz := Nat.mul_le_mul_right sz (Nat.le_of_lt hj)
  omega

/-! ## Counting set bits -/

theorem live_bits_le (c : Nat → Nat) : ∀ n, live_bits c n ≤ n := by
  intro n
  induction n with
  | zero => simp [live_bits]
  | succ n ih =>
    unfold live_bits
    split <;> omega

theorem live_bits_congr (c d : Nat → Nat) :
    ∀ n, (∀ k, k < n → bit_is_set c k = bit_is_set d k) → live_bits c n = live_bits d n := by
  intro n
  induction n with
  | zero => intro _; rfl
  | succ n ih =>
    intro h
    unfold live_bits
    rw [ih (fun k hk => h k (by omega)), h n (by omega)]

theorem live_bits_all (c : Nat → Nat) :
    ∀ n, live_bits c n = n ↔ ∀ k, k < n → bit_is_set c k = true := by
  intro n
  induction n with
  | zero => simp [live_bits]
  | succ n ih =>
    have hle := live_bits_le c n
    unfold live_bits
    constructor
    · intro h k hk
      cases hb : bit_is_set c n
      · rw [hb] at h; simp at h; omega
      · rw [hb] at h; simp at h
        rcases Nat.lt_succ_iff_lt_or_eq.1 hk with h1 | h1
        · exact (ih.1 h) k h1
        · rw [h1]; exact hb
    · intro h
      rw [h n (by omega), ih.2 (fun k hk => h k (by omega))]
      simp

theorem exists_clear_of_live_lt (c : Nat → Nat) (n : Nat) (h : live_bits c n < n) :
    ∃ k, k < n ∧ bit_is_set c k = false := by
  by_contra hne
  have hall : ∀ k, k < n → bit_is_set c k = true := by
    intro k hk
    cases hb : bit_is_set c k
    · exact absurd ⟨k, hk, hb⟩ hne
    · rfl
  have := (live_bits_all c n).2 hall
  omega

theorem live_bits_set_ge (c : Nat → Nat) (j : Nat) :
    ∀ n, n ≤ j → live_bits (set_bit c j) n = live_bits c n := by
  intro n hn
  apply live_bits_congr
  intro k hk
  rw [bit_is_set_set_bit]
  have : ¬ k = j := by omega
  simp [this]

theorem live_bits_set (c : Nat → Nat) (j : Nat) (hc : bit_is_set c j = false) :
    ∀ n, j < n → live_bits (set_bit c j) n = live_bits c n + 1 := by
  intro n
  induction n with
  | zero => intro h; omega
  | succ n ih =>
    intro h
    unfold live_bits
    rw [bit_is_set_set_bit]
    rcases Nat.lt_succ_iff_lt_or_eq.1 h with h1 | h1
    · have : ¬ n = j := by omega
      rw [ih h1]
      simp only [this, decide_False, Bool.false_or]
      omega
    · subst h1
      rw [live_bits_set_ge c j j (Nat.le_refl _), hc]
      simp

theorem live_bits_clear_ge (c : Nat → Nat) (j : Nat) :
    ∀ n, n ≤ j → live_bits (clear_bit c j) n = live_bits c n := by
  intro n hn
  apply live_bits_congr
  intro k hk
  rw [bit_is_set_clear_bit]
  have : ¬ k = j := by omega
  simp [this]

theorem live_bits_clear (c : Nat → Nat) (j : Nat) (hc : bit_is_set c j = true) :
    ∀ n, j < n → live_bits (clear_bit c j) n + 1 = live_bits c n := by
  intro n
  induction n with
  | zero => intro h; omega
  | succ n ih =>
    intro h
    unfold live_bits
    rw [bit_is_set_clear_bit]
    rcases Nat.lt_succ_iff_lt_or_eq.1 h with h1 | h1
    · have : ¬ n = j := by omega
      have := ih h1
      simp only [*, decide_False, Bool.not_false, Bool.true_and]
      omega
    · subst h1
      rw [live_bits_clear_ge c j j (Nat.le_refl _), hc]
      simp

theorem live_bits_none (c : Nat → Nat) :
    ∀ n, (∀ k, k < n → bit_is_set c k = false) → live_bits c n = 0 := by
  intro n
  induction n with
  | zero => intro _; rfl
  | succ n ih =>
    intro h
    unfold live_bits
    rw [ih (fun k hk => h k (by omega)), h n (by omega)]
    simp

/-! ## One allocation step -/

theorem memb_alloc_free_slot (m : memb) (fuel : Nat) (hn : m.num < 65536)
    (hl : m.last < m.num) (hf : m.num + 2 ≤ fuel) (hp : live_bits m.count m.num < m.num) :
    ∃ j, j < m.num ∧ bit_is_set m.count j = false ∧
      memb_alloc fuel m =
        some ({ m with count := set_bit m.count j, last := j },
          (m.mem + j * m.size) % 65536) := by
  have hc := exists_clear_of_live_lt m.count m.num hp
  obtain ⟨j, hj⟩ := first_clear_isSome m.count m.last m.num (Nat.le_of_lt hl) hc
  obtain ⟨hjn, hjc⟩ := first_clear_some m.count m.last m.num j (Nat.le_of_lt hl) hj
  refine ⟨j, hjn, hjc, ?_⟩
  rw [memb_alloc_eq m fuel hn (Nat.le_of_lt hl) hf (Or.inl hl), hj]
  simp only [memb_result, addr16_eq]

theorem memb_alloc_full (m : memb) (fuel : Nat) (hn : m.num < 65536)
    (hl : m.last < m.num) (hf : m.num + 2 ≤ fuel) (hp : live_bits m.count m.num = m.num) :
    memb_alloc fuel m = some ({ m with last := 0 }, NULL) := by
  have hall := (live_bits_all m.count m.num).1 hp
  rw [memb_alloc_eq m fuel hn (Nat.le_of_lt hl) hf (Or.inl hl),
    (first_clear_eq_none m.count m.last m.num (Nat.le_of_lt hl)).2 hall]
  rfl

theorem membx_alloc_free_slot (inv : Nat) (m : membx) (fuel : Nat) (hn : m.num < 65536)
    (hl : m.last < m.num) (hf : m.num + 2 ≤ fuel) (hp : live_bits m.count m.num < m.num) :
    ∃ j, j < m.num ∧ bit_is_set m.count j = false ∧
      membx_alloc inv fuel m =
        some ({ m with count := set_bit m.count j, last := j,
                       n_alloc := (m.n_alloc + 1) % 65536 },
          (m.mem + j * m.size) % 4294967296) := by
  have hc := exists_clear_of_live_lt m.count m.num hp
  obtain ⟨j, hj⟩ := first_clear_isSome m.count m.last m.num (Nat.le_of_lt hl) hc
  obtain ⟨hjn, hjc⟩ := first_clear_some m.count m.last m.num j (Nat.le_of_lt hl) hj
  refine ⟨j, hjn, hjc, ?_⟩
  rw [membx_alloc_eq inv m fuel hn (Nat.le_of_lt hl) hf (Or.inl hl), hj]
  simp only [membx_result, addr32_eq]

theorem membx_alloc_full (inv : Nat) (m : membx) (fuel : Nat) (hn : m.num < 65536)
    (hl : m.last < m.num) (hf : m.num + 2 ≤ fuel) (hp : live_bits m.count m.num = m.num) :
    membx_alloc inv fuel m = some ({ m with last := 0 }, inv) := by
  have hall := (live_bits_all m.count m.num).1 hp
  rw [membx_alloc_eq inv m fuel hn (Nat.le_of_lt hl) hf (Or.inl hl),
    (first_clear_eq_none m.count m.last m.num (Nat.le_of_lt hl)).2 hall]
  rfl

/-! ## Runs of allocations -/

theorem memb_alloc_seq_run (fuel N : Nat) (hN : N < 65536) (hf : N + 2 ≤ fuel) :
    ∀ (t : Nat) (m : memb), m.num = N → m.last < N → live_bits m.count N + t = N →
      ∃ m1 as, memb_alloc_seq fuel (t + 1) m = some (m1, as ++ [NULL]) ∧ as.length = t ∧
        (∀ r, r ∈ as → ∃ j, j < N ∧ r = (m.mem + j * m.size) % 65536) ∧
        (∀ k, k < N → bit_is_set m1.count k = true) := by
  intro t
  induction t with
  | zero =>
    intro m hnum hl hp
    subst hnum
    have hfull := memb_alloc_full m fuel hN hl hf (by omega)
    refine ⟨{ m with last := 0 }, [], ?_, rfl, ?_, ?_⟩
    · simp [memb_alloc_seq, hfull]
    · intro r hr; cases hr
    · exact (live_bits_all m.count m.num).1 (by omega)
  | succ t ih =>
    intro m hnum hl hp
    subst hnum
    obtain ⟨j, hjn, hjc, hal⟩ := memb_alloc_free_slot m fuel hN hl hf (by omega)
    have hlive := live_bits_set m.count j hjc m.num hjn
    obtain ⟨m1, as, hseq, hlen, hres, hfin⟩ :=
      ih { m with count := set_bit m.count j, last := j } rfl hjn
        (by show live_bits (set_bit m.count j) m.num + t = m.num; omega)
    refine ⟨m1, (m.mem + j * m.size) % 65536 :: as, ?_, by simp [hlen], ?_, hfin⟩
    · rw [memb_alloc_seq, hal]
      simp only [hseq, List.cons_append]
    · intro r hr
      rcases List.mem_cons.1 hr with h1 | h1
      · exact ⟨j, hjn, h1⟩
      · exact hres r h1

theorem membx_alloc_seq_run (inv fuel N : Nat) (hN : N < 65536) (hf : N + 2 ≤ fuel) :
    ∀ (t : Nat) (m : membx), m.num = N → m.last < N → live_bits m.count N + t = N →
      ∃ m1 as, membx_alloc_seq inv fuel (t + 1) m = some (m1, as ++ [inv]) ∧ as.length = t ∧
        (∀ r, r ∈ as → ∃ j, j < N ∧ r = (m.mem + j * m.size) % 4294967296) ∧
        (∀ k, k < N → bit_is_set m1.count k = true) := by
  intro t
  induction t with
  | zero =>
    intro m hnum hl hp
    subst hnum
    have hfull := membx_alloc_full inv m fuel hN hl hf (by omega)
    refine ⟨{ m with last := 0 }, [], ?_, rfl, ?_, ?_⟩
    · simp [membx_alloc_seq, hfull]
    · intro r hr; cases hr
    · exact (live_bits_all m.count m.num).1 (by omega)
  | succ t ih =>
    intro m hnum hl hp
    subst hnum
    obtain ⟨j, hjn, hjc, hal⟩ := membx_alloc_free_slot inv m fuel hN hl hf (by omega)
    have hlive := live_bits_set m.count j hjc m.num hjn
    obtain ⟨m1, as, hseq, hlen, hres, hfin⟩ :=
      ih { m with count := set_bit m.count j, last := j,
                  n_alloc := (m.n_alloc + 1) % 65536 } rfl hjn
        (by show live_bits (set_bit m.count j) m.num + t = m.num; omega)
    refine ⟨m1, (m.mem + j * m.size) % 4294967296 :: as, ?_, by simp [hlen], ?_, hfin⟩
    · rw [membx_alloc_seq, hal]
      simp only [hseq, List.cons_append]
    · intro r hr
      rcases List.mem_cons.1 hr with h1 | h1
      · exact ⟨j, hjn, h1⟩
      · exact hres r h1

/-! ## Free in terms of the computed index -/

theorem memb_free_eq (m : memb) (a : Nat) (hs : 0 < m.size) :
    memb_free m a =
      some (if memb_free_idx m a < m.num
        then { m with count := clear_bit m.count (memb_free_idx m a) } else m) := by
  unfold memb_free memb_free_idx
  have hs0 : ¬ m.size = 0 := by omega
  simp only [hs0, if_false]
  split <;> rfl

theorem membx_free_eq (x : membx) (p : Nat) (hs : 0 < x.size) :
    membx_free x p =
      some (if membx_free_idx x p < x.num ∧ bit_is_set x.count (membx_free_idx x p) = true
        then { x with count := clear_bit x.count (membx_free_idx x p),
                      n_alloc := (x.n_alloc + 65535) % 65536 }
        else x) := by
  unfold membx_free membx_free_idx
  have hs0 : ¬ x.size = 0 := by omega
  simp only [hs0, if_false, mask_test_int]
  split <;> rfl

theorem clear_bit_idem (c : Nat → Nat) (j : Nat) :
    clear_bit (clear_bit c j) j = clear_bit c j := by
  have key : ∀ v mask : Nat, (((v &&& mask) % 256) &&& mask) % 256 = (v &&& mask) % 256 := by
    intro v mask
    apply Nat.eq_of_testBit_eq
    intro t
    have e : (256 : Nat) = 2 ^ 8 := rfl
    simp only [e, Nat.testBit_mod_two_pow, Nat.testBit_and]
    cases decide (t < 8) <;> cases v.testBit t <;> cases mask.testBit t <;> rfl
  unfold clear_bit
  rw [Function.update_same, Function.update_idem, key]

theorem memb_free_idx_block (m : memb) (i : Nat) (hs : 0 < m.size) (hn : m.num < 65536)
    (hfit : m.mem + m.num * m.size ≤ 65536) (hi : i < m.num) :
    memb_free_idx m (m.mem + i * m.size) = i := by
  unfold memb_free_idx
  have hlt : i * m.size < m.num * m.size := Nat.mul_lt_mul_of_pos_right hi hs
  have hd : ((m.mem + i * m.size) % 65536 + (65536 - m.mem % 65536)) % 65536
      = i * m.size := by
    generalize i * m.size = T at hlt
    generalize m.num * m.size = U at hlt hfit
    omega
  rw [hd, Nat.mul_div_cancel i hs]
  exact Nat.mod_eq_of_lt (by omega)

theorem membx_free_idx_block (x : membx) (i : Nat) (hs : 0 < x.size) (hsz : x.size < 65536)
    (hn : x.num < 65536) (hi : i < x.num) :
    membx_free_idx x ((x.mem + i * x.size) % 4294967296) = i := by
  unfold membx_free_idx
  have hlt : i * x.size < 65536 * 65536 :=
    Nat.mul_lt_mul_of_lt_of_lt (by omega) hsz
  have hd : (((x.mem + i * x.size) % 4294967296) % 4294967296
      + (4294967296 - x.mem % 4294967296)) % 4294967296 = i * x.size := by
    generalize i * x.size = T at hlt
    omega
  rw [hd, Nat.mul_div_cancel i hs]
  exact Nat.mod_eq_of_lt (by omega)

theorem first_clear_only (c : Nat → Nat) (l N i : Nat) (hl : l ≤ N) (hi : i < N)
    (hall : ∀ k, k < N → bit_is_set c k = true) :
    first_clear (clear_bit c i) l N = some i := by
  have hc : bit_is_set (clear_bit c i) i = false := by
    rw [bit_is_set_clear_bit]; simp
  obtain ⟨j, hj⟩ := first_clear_isSome (clear_bit c i) l N hl ⟨i, hi, hc⟩
  obtain ⟨hjn, hjc⟩ := first_clear_some (clear_bit c i) l N j hl hj
  have : j = i := by
    by_contra hne
    rw [bit_is_set_clear_bit, hall j hjn] at hjc
    simp [hne] at hjc
  rw [hj, this]

theorem refill_all_set (c : Nat → Nat) (N i : Nat)
    (hall : ∀ k, k < N → bit_is_set c k = true) :
    ∀ k, k < N → bit_is_set (set_bit (clear_bit c i) i) k = true := by
  intro k hk
  rw [bit_is_set_set_bit, bit_is_set_clear_bit, hall k hk]
  by_cases h : k = i <;> simp [h]

theorem membx_free_live (x : membx) (p : Nat) (hs : 0 < x.size) (hn : x.num < 65536)
    (hc : x.n_alloc = live_bits x.count x.num) :
    ∃ x1, membx_free x p = some x1 ∧ x1.n_alloc = live_bits x1.count x1.num := by
  unfold membx_free
  have hs0 : ¬ x.size = 0 := by omega
  simp only [hs0, if_false]
  generalize (((p % 4294967296 + (4294967296 - x.mem % 4294967296)) % 4294967296)
      / x.size) % 65536 = i
  by_cases hcond : i < x.num ∧ x.count (i >>> 3) &&& (1 <<< (i &&& 0x07)) ≠ 0
  · rw [if_pos hcond]
    refine ⟨_, rfl, ?_⟩
    have hset := (mask_test_int x.count i).1 hcond.2
    have h1 := live_bits_clear x.count i hset x.num hcond.1
    have h2 := live_bits_le x.count x.num
    show (x.n_alloc + 65535) % 65536 = live_bits (clear_bit x.count i) x.num
    omega
  · rw [if_neg hcond]
    exact ⟨x, rfl, hc⟩

/-! ## The scan of membx_get_next -/

theorem mask_test_ne_zero (count : Nat → Nat) (i : Nat) :
    count (i >>> 3) &&& bit_mask i ≠ 0 ↔ bit_is_set count i = true := by
  unfold bit_is_set; simp

theorem membx_get_next_loop_log_fst (inv : Nat) (m : membx) (s : Nat) :
    ∀ (fuel i : Nat),
      (membx_get_next_loop_log inv m s fuel i).map Prod.fst
        = membx_get_next_loop inv m s fuel i := by
  intro fuel
  induction fuel with
  | zero => intro i; rfl
  | succ f ih =>
    intro i
    unfold membx_get_next_loop_log membx_get_next_loop
    by_cases hb : m.count (i >>> 3) &&& bit_mask i ≠ 0
    · rw [if_pos hb, if_pos hb]; rfl
    · rw [if_neg hb, if_neg hb]
      dsimp only
      generalize (if (i + 1) % 65536 = m.num then 0 else (i + 1) % 65536) = i2
      by_cases h2 : i2 ≠ s
      · rw [if_pos h2, if_pos h2, ← ih]
        cases membx_get_next_loop_log inv m s f i2 <;> rfl
      · rw [if_neg h2, if_neg h2]; rfl

theorem range'_take_found (i n j : Nat) (h : j ∈ List.range' i n) :
    List.range' i (j - i + 1) <+: List.range' i n := by
  rw [List.mem_range'_1] at h
  have e : List.range' i n
      = List.range' i (j - i + 1) ++ List.range' (i + (j - i + 1)) (n - (j - i + 1)) := by
    rw [List.range'_append_1]
    congr 1
    omega
  rw [e]
  exact List.prefix_append _ _

theorem get_next_step_set (inv : Nat) (m : membx) (s f i : Nat)
    (hb : bit_is_set m.count i = true) :
    membx_get_next_loop_log inv m s (f + 1) i
      = some ((m.mem + i * m.size) % 4294967296, [i]) := by
  unfold membx_get_next_loop_log
  rw [if_pos ((mask_test_ne_zero m.count i).2 hb), addr32_eq]

theorem get_next_step_clear (inv : Nat) (m : membx) (s f i : Nat)
    (hb : bit_is_set m.count i = false) (hi : i + 1 < 65536) :
    membx_get_next_loop_log inv m s (f + 1) i
      = if (if i + 1 = m.num then 0 else i + 1) ≠ s then
          (membx_get_next_loop_log inv m s f (if i + 1 = m.num then 0 else i + 1)).map
            (fun p => (p.1, i :: p.2))
        else some (inv, [i]) := by
  have hc : ¬ (m.count (i >>> 3) &&& bit_mask i ≠ 0) := by
    intro h
    rw [(mask_test_ne_zero m.count i).1 h] at hb
    cases hb
  rw [membx_get_next_loop_log, if_neg hc]
  simp only [Nat.mod_eq_of_lt hi]

theorem get_next_found (inv : Nat) (m : membx) (s : Nat) (hN : m.num < 65536) :
    ∀ (d fuel i j : Nat), i + d = j → j < m.num → bit_is_set m.count j = true →
      (∀ k, i ≤ k → k < j → bit_is_set m.count k = false) →
      (∀ k, i ≤ k → k < j → k + 1 ≠ s) → d + 1 ≤ fuel →
      membx_get_next_loop_log inv m s fuel i
        = some ((m.mem + j * m.size) % 4294967296, List.range' i (d + 1)) := by
  intro d
  induction d with
  | zero =>
    intro fuel i j hij _ hset _ _ hf
    obtain ⟨f, rfl⟩ : ∃ f, fuel = f + 1 := ⟨fuel - 1, by omega⟩
    have e : i = j := by omega
    subst e
    rw [get_next_step_set inv m s f i hset]
    rfl
  | succ d ih =>
    intro fuel i j hij hj hset hclr hns hf
    obtain ⟨f, rfl⟩ : ∃ f, fuel = f + 1 := ⟨fuel - 1, by omega⟩
    rw [get_next_step_clear inv m s f i (hclr i (Nat.le_refl _) (by omega)) (by omega)]
    have h1 : ¬ i + 1 = m.num := by omega
    rw [if_neg h1, if_pos (hns i (Nat.le_refl _) (by omega))]
    rw [ih f (i + 1) j (by omega) hj hset (fun k hk1 hk2 => hclr k (by omega) hk2)
      (fun k hk1 hk2 => hns k (by omega) hk2) (by omega)]
    rw [List.range'_succ i (d + 1)]
    rfl

theorem get_next_none_b (inv : Nat) (m : membx) (s : Nat) (hN : m.num < 65536)
    (hs : s < m.num) :
    ∀ (d fuel i : Nat), i + (d + 1) = s →
      (∀ k, i ≤ k → k < s → bit_is_set m.count k = false) → d + 1 ≤ fuel →
      membx_get_next_loop_log inv m s fuel i = some (inv, List.range' i (d + 1)) := by
  intro d
  induction d with
  | zero =>
    intro fuel i his hclr hf
    obtain ⟨f, rfl⟩ : ∃ f, fuel = f + 1 := ⟨fuel - 1, by omega⟩
    rw [get_next_step_clear inv m s f i (hclr i (Nat.le_refl _) (by omega)) (by omega)]
    have h1 : ¬ i + 1 = m.num := by omega
    have h2 : ¬ (i + 1 ≠ s) := by omega
    rw [if_neg h1, if_neg h2]
    rfl
  | succ d ih =>
    intro fuel i his hclr hf
    obtain ⟨f, rfl⟩ : ∃ f, fuel = f + 1 := ⟨fuel - 1, by omega⟩
    rw [get_next_step_clear inv m s f i (hclr i (Nat.le_refl _) (by omega)) (by omega)]
    have h1 : ¬ i + 1 = m.num := by omega
    have h2 : i + 1 ≠ s := by omega
    rw [if_neg h1, if_pos h2]
    rw [ih f (i + 1) (by omega) (fun k hk1 hk2 => hclr k (by omega) hk2) (by omega)]
    rw [List.range'_succ i (d + 1)]
    rfl

theorem get_next_none_a (inv : Nat) (m : membx) (s : Nat) (hN : m.num < 65536) :
    ∀ (d fuel i : Nat), i + (d + 1) = m.num → s ≤ i →
      (∀ k, i ≤ k → k < m.num → bit_is_set m.count k = false) → d + 1 ≤ fuel →
      membx_get_next_loop_log inv m s fuel i
        = if s = 0 then some (inv, List.range' i (d + 1))
          else (membx_get_next_loop_log inv m s (fuel - (d + 1)) 0).map
            (fun p => (p.1, List.range' i (d + 1) ++ p.2)) := by
  intro d
  induction d with
  | zero =>
    intro fuel i hin hsi hclr hf
    obtain ⟨f, rfl⟩ : ∃ f, fuel = f + 1 := ⟨fuel - 1, by omega⟩
    rw [get_next_step_clear inv m s f i (hclr i (Nat.le_refl _) (by omega)) (by omega)]
    have h1 : i + 1 = m.num := by omega
    rw [if_pos h1]
    by_cases h0 : s = 0
    · have h2 : ¬ (0 ≠ s) := by omega
      rw [if_neg h2, if_pos h0]
      rfl
    · have h2 : 0 ≠ s := by omega
      rw [if_pos h2, if_neg h0]
      rfl
  | succ d ih =>
    intro fuel i hin hsi hclr hf
    obtain ⟨f, rfl⟩ : ∃ f, fuel = f + 1 := ⟨fuel - 1, by omega⟩
    rw [get_next_step_clear inv m s f i (hclr i (Nat.le_refl _) (by omega)) (by omega)]
    have h1 : ¬ i + 1 = m.num := by omega
    have h2 : i + 1 ≠ s := by omega
    rw [if_neg h1, if_pos h2]
    rw [ih f (i + 1) (by omega) (by omega) (fun k hk1 hk2 => hclr k (by omega) hk2) (by omega)]
    have e : f + 1 - (d + 1 + 1) = f - (d + 1) := by omega
    rw [e, List.range'_succ i (d + 1)]
    by_cases h0 : s = 0
    · rw [if_pos h0, if_pos h0]; rfl
    · rw [if_neg h0, if_neg h0]
      cases membx_get_next_loop_log inv m s (f - (d + 1)) 0 <;> rfl

theorem find_range'_some (p : Nat → Bool) :
    ∀ (n i j : Nat), (List.range' i n).find? p = some j →
      i ≤ j ∧ j < i + n ∧ p j = true ∧ ∀ k, i ≤ k → k < j → p k = false := by
  intro n
  induction n with
  | zero => intro i j h; simp at h
  | succ n ih =>
    intro i j h
    rw [List.range'_succ] at h
    cases hp : p i
    · rw [List.find?_cons_of_neg _ (by simp [hp])] at h
      obtain ⟨h1, h2, h3, h4⟩ := ih (i + 1) j h
      refine ⟨by omega, by omega, h3, ?_⟩
      intro k hk1 hk2
      by_cases hki : k = i
      · rw [hki]; exact hp
      · exact h4 k (by omega) hk2
    · rw [List.find?_cons_of_pos _ hp] at h
      have e : i = j := by simpa using h
      subst e
      exact ⟨Nat.le_refl _, by omega, hp, fun k hk1 hk2 => by omega⟩

theorem find_range'_none (p : Nat → Bool) (n i : Nat)
    (h : (List.range' i n).find? p = none) :
    ∀ k, i ≤ k → k < i + n → p k = false := by
  intro k hk1 hk2
  rw [List.find?_eq_none] at h
  have := h k (by rw [List.mem_range'_1]; omega)
  simpa using this

theorem first_set_some (c : Nat → Nat) (s N j : Nat) (hs : s ≤ N)
    (h : first_set c s N = some j) : j < N ∧ bit_is_set c j = true := by
  unfold first_set at h
  exact ⟨(mem_circ_order s N j hs).1 (List.mem_of_find?_eq_some h), List.find?_some h⟩

theorem first_set_eq_none (c : Nat → Nat) (s N : Nat) (hs : s ≤ N) :
    first_set c s N = none ↔ ∀ k, k < N → bit_is_set c k = false := by
  unfold first_set
  rw [List.find?_eq_none]
  constructor
  · intro h k hk
    have := h k ((mem_circ_order s N k hs).2 hk)
    simpa using this
  · intro h k hk
    have := h k ((mem_circ_order s N k hs).1 hk)
    simp [this]

/-- With fuel for num loop rounds the loop of membx_get_next returns; its result is the
offset of the first set index of the circular order from s, or the sentinel, and the
indices it tested form an initial segment of that order. -/
theorem get_next_loop_log_eq (inv : Nat) (m : membx) (s fuel : Nat) (hs : s < m.num)
    (hN : m.num < 65536) (hf : m.num ≤ fuel) :
    ∃ t, membx_get_next_loop_log inv m s fuel s
        = some ((match first_set m.count s m.num with
                 | some j => (m.mem + j * m.size) % 4294967296
                 | none => inv), t) ∧
      t <+: circ_order s m.num := by
  unfold first_set circ_order
  rw [List.find?_append]
  cases hA : (List.range' s (m.num - s)).find? (fun i => bit_is_set m.count i) with
  | some j =>
    obtain ⟨h1, h2, h3, h4⟩ := find_range'_some _ _ _ _ hA
    refine ⟨List.range' s (j - s + 1), ?_, ?_⟩
    · simp only [Option.or]
      exact get_next_found inv m s hN (j - s) fuel s j (by omega) (by omega) h3 h4
        (fun k hk1 hk2 => by omega) (by omega)
    · exact (range'_take_found s (m.num - s) j (List.mem_of_find?_eq_some hA)).trans
        (List.prefix_append _ _)
  | none =>
    have hclrA := find_range'_none _ _ _ hA
    have stepA := get_next_none_a inv m s hN (m.num - s - 1) fuel s (by omega)
      (Nat.le_refl _) (fun k hk1 hk2 => hclrA k hk1 (by omega)) (by omega)
    have e1 : m.num - s - 1 + 1 = m.num - s := by omega
    rw [e1] at stepA
    rw [stepA]
    simp only [Option.or]
    by_cases h0 : s = 0
    · rw [if_pos h0]
      subst h0
      exact ⟨List.range' 0 (m.num - 0), by simp, by simp⟩
    · rw [if_neg h0, List.range_eq_range']
      cases hB : (List.range' 0 s).find? (fun i => bit_is_set m.count i) with
      | some j =>
        obtain ⟨h1, h2, h3, h4⟩ := find_range'_some _ _ _ _ hB
        refine ⟨List.range' s (m.num - s) ++ List.range' 0 (j + 1), ?_, ?_⟩
        · rw [get_next_found inv m s hN j (fuel - (m.num - s)) 0 j (by omega) (by omega) h3
            h4 (fun k hk1 hk2 => by omega) (by omega)]
          rfl
        · rw [List.prefix_append_right_inj]
          exact range'_take_found 0 s j (List.mem_of_find?_eq_some hB)
      | none =>
        have hclrB := find_range'_none _ _ _ hB
        refine ⟨List.range' s (m.num - s) ++ List.range' 0 s, ?_, List.prefix_refl _⟩
        have stepB := get_next_none_b inv m s hN hs (s - 1) (fuel - (m.num - s)) 0
          (by omega) (fun k hk1 hk2 => hclrB k hk1 (by omega)) (by omega)
        have e2 : s - 1 + 1 = s := by omega
        rw [e2] at stepB
        rw [stepB]
        rfl

theorem addr32_inj (b sz j k : Nat) (hs : 0 < sz) (hsz : sz < 65536) (hj : j < 65536)
    (hk : k < 65536) (h : (b + j * sz) % 4294967296 = (b + k * sz) % 4294967296) : j = k := by
  have h1 : j * sz < 65536 * 65536 := Nat.mul_lt_mul_of_lt_of_lt hj hsz
  have h2 : k * sz < 65536 * 65536 := Nat.mul_lt_mul_of_lt_of_lt hk hsz
  have h3 : j * sz = k * sz := by
    generalize j * sz = A at h h1
    generalize k * sz = B at h h2
    omega
  exact Nat.eq_of_mul_eq_mul_right hs h3

theorem membx_get_next_eq (inv fuel : Nat) (m : membx) (start : Nat) :
    membx_get_next inv fuel m start
      = (m, (membx_get_next_log inv fuel m start).map Prod.fst) := by
  unfold membx_get_next membx_get_next_log
  simp only [membx_get_next_loop_log_fst]

theorem membx_get_next_result (inv fuel : Nat) (m : membx) (start : Nat) (h1 : 1 ≤ m.num)
    (hN : m.num < 65536) (hf : m.num ≤ fuel) :
    (membx_get_next inv fuel m start).2
      = some (match first_set m.count (if start < m.num then start else 0) m.num with
              | some j => (m.mem + j * m.size) % 4294967296
              | none => inv) := by
  rw [membx_get_next_eq]
  unfold membx_get_next_log
  have e : (if start ≥ m.num then 0 else start) = (if start < m.num then start else 0) := by
    by_cases h : start < m.num
    · rw [if_pos h, if_neg (by omega)]
    · rw [if_neg h, if_pos (by omega)]
  simp only [e]
  have hs : (if start < m.num then start else 0) < m.num := by
    split <;> omega
  obtain ⟨t, ht, _⟩ := get_next_loop_log_eq inv m _ fuel hs hN hf
  simp only [ht, Option.map]

/-! ## Iterating over the live blocks -/

theorem filter_range'_found (p : Nat → Bool) :
    ∀ (n s j : Nat), (List.range' s n).find? p = some j →
      (List.range' s n).filter p = j :: (List.range' (j + 1) (s + n - (j + 1))).filter p := by
  intro n
  induction n with
  | zero => intro s j h; simp at h
  | succ n ih =>
    intro s j h
    rw [List.range'_succ] at h ⊢
    cases hp : p s
    · rw [List.find?_cons_of_neg _ (by simp [hp])] at h
      rw [List.filter_cons_of_neg (by simp [hp]), ih (s + 1) j h]
      have e : s + 1 + n - (j + 1) = s + (n + 1) - (j + 1) := by omega
      rw [e]
    · rw [List.find?_cons_of_pos _ hp] at h
      have e : s = j := by simpa using h
      subst e
      rw [List.filter_cons_of_pos hp]
      have e2 : s + (n + 1) - (s + 1) = n := by omega
      rw [e2]

theorem filter_range'_none (p : Nat → Bool) (n s : Nat)
    (h : (List.range' s n).find? p = none) : (List.range' s n).filter p = [] := by
  rw [List.find?_eq_none] at h
  rw [List.filter_eq_nil_iff]
  exact h

theorem first_set_of_find (c : Nat → Nat) (s N j : Nat)
    (h : (List.range' s (N - s)).find? (fun i => bit_is_set c i) = some j) :
    first_set c s N = some j := by
  unfold first_set circ_order
  rw [List.find?_append, h]
  rfl

theorem membx_iterate_from (inv fuel : Nat) (m : membx) (hN : m.num < 65536)
    (hs : 0 < m.size) (hsz : m.size < 65536) (hf : m.num ≤ fuel) :
    ∀ (b n s : Nat), n ≤ b → s + n = m.num →
      membx_iterate inv fuel m
          ((List.range' s n).filter (fun i => bit_is_set m.count i)).length s
        = some (((List.range' s n).filter (fun i => bit_is_set m.count i)).map
            (fun j => (m.mem + j * m.size) % 4294967296)) := by
  intro b
  induction b with
  | zero =>
    intro n s hn _
    have : n = 0 := by omega
    subst this
    rfl
  | succ b ih =>
    intro n s hn hsn
    cases hfd : (List.range' s n).find? (fun i => bit_is_set m.count i) with
    | none =>
      rw [filter_range'_none _ _ _ hfd]
      rfl
    | some j =>
      obtain ⟨h1, h2, h3, _⟩ := find_range'_some _ _ _ _ hfd
      rw [filter_range'_found _ _ _ _ hfd]
      have hn' : n = m.num - s := by omega
      have hfs : first_set m.count s m.num = some j :=
        first_set_of_find m.count s m.num j (by rw [← hn']; exact hfd)
      have hres := membx_get_next_result inv fuel m s (by omega) hN hf
      rw [if_pos (by omega), hfs] at hres
      have hidx := membx_free_idx_block m j hs hsz hN (by omega)
      have hnext : (j + 1) % 65536 = j + 1 := Nat.mod_eq_of_lt (by omega)
      simp only [List.length_cons, List.map_cons]
      rw [membx_iterate, hres]
      simp only [hidx, hnext]
      rw [ih (s + n - (j + 1)) (j + 1) (by omega) (by omega)]
      rfl

theorem live_indices_mem (c : Nat → Nat) (N j : Nat) :
    j ∈ live_indices c N ↔ j < N ∧ bit_is_set c j = true := by
  unfold live_indices
  rw [List.mem_filter, List.mem_range]

/-! ## Frame facts of free -/

theorem memb_free_frame (m m1 : memb) (a : Nat) (h : memb_free m a = some m1) :
    m1.size = m.size ∧ m1.num = m.num ∧ m1.last = m.last ∧ m1.mem = m.mem ∧
    m1.data = m.data ∧
    (m1.count = m.count ∨
      m1.count = clear_bit m.count (memb_free_idx m a) ∧ memb_free_idx m a < m.num) := by
  by_cases hs : m.size = 0
  · simp [memb_free, hs] at h
  · rw [memb_free_eq m a (by omega)] at h
    have e := Option.some.inj h
    by_cases hi : memb_free_idx m a < m.num
    · rw [if_pos hi] at e
      rw [← e]
      exact ⟨rfl, rfl, rfl, rfl, rfl, Or.inr ⟨rfl, hi⟩⟩
    · rw [if_neg hi] at e
      rw [← e]
      exact ⟨rfl, rfl, rfl, rfl, rfl, Or.inl rfl⟩

theorem membx_free_frame (x x1 : membx) (a : Nat) (h : membx_free x a = some x1) :
    x1.size = x.size ∧ x1.num = x.num ∧ x1.last = x.last ∧ x1.mem = x.mem ∧
    (x1.count = x.count ∧ x1.n_alloc = x.n_alloc ∨
      x1.count = clear_bit x.count (membx_free_idx x a) ∧ membx_free_idx x a < x.num ∧
        bit_is_set x.count (membx_free_idx x a) = true ∧
        x1.n_alloc = (x.n_alloc + 65535) % 65536) := by
  by_cases hs : x.size = 0
  · simp [membx_free, hs] at h
  · rw [membx_free_eq x a (by omega)] at h
    have e := Option.some.inj h
    by_cases hi : membx_free_idx x a < x.num ∧ bit_is_set x.count (membx_free_idx x a) = true
    · rw [if_pos hi] at e
      rw [← e]
      exact ⟨rfl, rfl, rfl, rfl, Or.inr ⟨rfl, hi.1, hi.2, rfl⟩⟩
    · rw [if_neg hi] at e
      rw [← e]
      exact ⟨rfl, rfl, rfl, rfl, Or.inl ⟨rfl, rfl⟩⟩

theorem memb_free_returns (m : memb) (a : Nat) (hs : 0 < m.size) :
    ∃ m1, memb_free m a = some m1 :=
  ⟨_, memb_free_eq m a hs⟩

theorem membx_free_returns (x : membx) (a : Nat) (hs : 0 < x.size) :
    ∃ x1, membx_free x a = some x1 :=
  ⟨_, membx_free_eq x a hs⟩

theorem memb_free_idx_inside (m : memb) (a : Nat) (hs : 0 < m.size) (hn : m.num < 65536)
    (ha : a < 65536) (h1 : m.mem ≤ a) (h2 : a < m.mem + m.num * m.size) :
    memb_free_idx m a = (a - m.mem) / m.size ∧ (a - m.mem) / m.size < m.num := by
  have hq : (a - m.mem) / m.size < m.num := by
    rw [Nat.div_lt_iff_lt_mul hs]; omega
  refine ⟨?_, hq⟩
  unfold memb_free_idx
  have hd : (a % 65536 + (65536 - m.mem % 65536)) % 65536 = a - m.mem := by omega
  rw [hd]
  exact Nat.mod_eq_of_lt (by omega)

theorem membx_free_idx_inside (x : membx) (a : Nat) (hs : 0 < x.size) (hn : x.num < 65536)
    (ha : a < 4294967296) (h1 : x.mem ≤ a) (h2 : a < x.mem + x.num * x.size) :
    membx_free_idx x a = (a - x.mem) / x.size ∧ (a - x.mem) / x.size < x.num := by
  have hq : (a - x.mem) / x.size < x.num := by
    rw [Nat.div_lt_iff_lt_mul hs]; omega
  refine ⟨?_, hq⟩
  unfold membx_free_idx
  have hd : (a % 4294967296 + (4294967296 - x.mem % 4294967296)) % 4294967296
      = a - x.mem := by omega
  rw [hd]
  exact Nat.mod_eq_of_lt (by omega)

theorem block_extent (a b sz : Nat) (hs : 0 < sz) (h1 : b ≤ a) :
    b + (a - b) / sz * sz ≤ a ∧ a < b + ((a - b) / sz + 1) * sz := by
  have h := Nat.div_add_mod (a - b) sz
  have hr := Nat.mod_lt (a - b) hs
  have e1 : (a - b) / sz * sz = sz * ((a - b) / sz) := Nat.mul_comm _ _
  have e2 : ((a - b) / sz + 1) * sz = sz * ((a - b) / sz) + sz := by
    rw [Nat.add_mul, Nat.one_mul, Nat.mul_comm]
  rw [e1, e2]
  generalize sz * ((a - b) / sz) = Q at h
  generalize (a - b) % sz = R at h hr
  omega

theorem bit_clear_after_clear (c : Nat → Nat) (j : Nat) :
    bit_is_set (clear_bit c j) j = false := by
  rw [bit_is_set_clear_bit]; simp

theorem bit_other_after_clear (c : Nat → Nat) (j k : Nat) (h : k ≠ j) :
    bit_is_set (clear_bit c j) k = bit_is_set c k := by
  rw [bit_is_set_clear_bit]; simp [h]

/-! ## Outcomes of one call -/

theorem memb_find_free_outcome (m : memb) :
    ∀ (fuel i limit : Nat) (m1 : memb) (r : Nat),
      memb_find_free m fuel i limit = some (m1, r) →
      (∃ j, bit_is_set m.count j = false ∧
        m1 = { m with count := set_bit m.count j, last := j } ∧
        r = (m.mem + j * m.size) % 65536) ∨
      (m1 = { m with last := 0 } ∧ r = NULL) := by
  intro fuel
  induction fuel with
  | zero => intro i limit m1 r h; simp [memb_find_free] at h
  | succ f ih =>
    intro i limit m1 r h
    unfold memb_find_free at h
    by_cases hlt : i < limit
    · rw [if_pos hlt] at h
      by_cases hb : m.count (i >>> 3) &&& bit_mask i = 0
      · rw [if_pos hb] at h
        have e := Option.some.inj h
        left
        refine ⟨i, (mask_test_eq_zero m.count i).1 hb, ?_, ?_⟩
        · exact (congrArg Prod.fst e).symm
        · rw [← addr16_eq]; exact (congrArg Prod.snd e).symm
      · rw [if_neg hb] at h
        exact ih _ _ m1 r h
    · rw [if_neg hlt] at h
      by_cases hc : m.last ≠ 0 ∧ i = m.num
      · rw [if_pos hc] at h
        exact ih _ _ m1 r h
      · rw [if_neg hc] at h
        have e := Option.some.inj h
        right
        exact ⟨(congrArg Prod.fst e).symm, (congrArg Prod.snd e).symm⟩

theorem membx_find_free_outcome (inv : Nat) (x : membx) :
    ∀ (fuel i limit : Nat) (x1 : membx) (r : Nat),
      membx_find_free inv x fuel i limit = some (x1, r) →
      (∃ j, bit_is_set x.count j = false ∧
        x1 = { x with count := set_bit x.count j, last := j,
                      n_alloc := (x.n_alloc + 1) % 65536 } ∧
        r = (x.mem + j * x.size) % 4294967296) ∨
      (x1 = { x with last := 0 } ∧ r = inv) := by
  intro fuel
  induction fuel with
  | zero => intro i limit x1 r h; simp [membx_find_free] at h
  | succ f ih =>
    intro i limit x1 r h
    unfold membx_find_free at h
    by_cases hlt : i < limit
    · rw [if_pos hlt] at h
      by_cases hb : x.count (i >>> 3) &&& bit_mask i = 0
      · rw [if_pos hb] at h
        have e := Option.some.inj h
        left
        refine ⟨i, (mask_test_eq_zero x.count i).1 hb, ?_, ?_⟩
        · exact (congrArg Prod.fst e).symm
        · rw [← addr32_eq]; exact (congrArg Prod.snd e).symm
      · rw [if_neg hb] at h
        exact ih _ _ x1 r h
    · rw [if_neg hlt] at h
      by_cases hc : x.last ≠ 0 ∧ i = x.num
      · rw [if_pos hc] at h
        exact ih _ _ x1 r h
      · rw [if_neg hc] at h
        have e := Option.some.inj h
        right
        exact ⟨(congrArg Prod.fst e).symm, (congrArg Prod.snd e).symm⟩

theorem bit_set_after_set (c : Nat → Nat) (j : Nat) :
    bit_is_set (set_bit c j) j = true := by
  rw [bit_is_set_set_bit]; simp

theorem bit_other_after_set (c : Nat → Nat) (j k : Nat) (h : k ≠ j) :
    bit_is_set (set_bit c j) k = bit_is_set c k := by
  rw [bit_is_set_set_bit]; simp [h]

theorem clear_bit_bits (c : Nat → Nat) (j : Nat) :
    (∀ k, bit_is_set (clear_bit c j) k = bit_is_set c k) ∨
    (bit_is_set c j = true ∧ bit_is_set (clear_bit c j) j = false ∧
      ∀ k, k ≠ j → bit_is_set (clear_bit c j) k = bit_is_set c k) := by
  cases hb : bit_is_set c j
  · left
    intro k
    by_cases hk : k = j
    · rw [hk, bit_clear_after_clear, hb]
    · exact bit_other_after_clear c j k hk
  · right
    exact ⟨rfl, bit_clear_after_clear c j, fun k hk => bit_other_after_clear c j k hk⟩

/-! ## One call at a known index -/

theorem memb_alloc_at (m : memb) (fuel j : Nat) (hn : m.num < 65536) (hl : m.last < m.num)
    (hf : m.num + 2 ≤ fuel) (hfc : first_clear m.count m.last m.num = some j)
    (hfit : m.mem + m.num * m.size ≤ 65536) (hs : 0 < m.size) :
    memb_alloc fuel m
      = some ({ m with count := set_bit m.count j, last := j }, m.mem + j * m.size) := by
  have hj := (first_clear_some m.count m.last m.num j (Nat.le_of_lt hl) hfc).1
  have hlt : j * m.size < m.num * m.size := Nat.mul_lt_mul_of_pos_right hj hs
  rw [memb_alloc_eq m fuel hn (Nat.le_of_lt hl) hf (Or.inl hl), hfc]
  simp only [memb_result, addr16_eq]
  rw [Nat.mod_eq_of_lt (by omega)]

theorem membx_alloc_at (inv : Nat) (x : membx) (fuel j : Nat) (hn : x.num < 65536)
    (hl : x.last < x.num) (hf : x.num + 2 ≤ fuel)
    (hfc : first_clear x.count x.last x.num = some j)
    (hfit : x.mem + x.num * x.size ≤ 4294967296) (hs : 0 < x.size) :
    membx_alloc inv fuel x
      = some ({ x with count := set_bit x.count j, last := j,
                       n_alloc := (x.n_alloc + 1) % 65536 }, x.mem + j * x.size) := by
  have hj := (first_clear_some x.count x.last x.num j (Nat.le_of_lt hl) hfc).1
  have hlt : j * x.size < x.num * x.size := Nat.mul_lt_mul_of_pos_right hj hs
  rw [membx_alloc_eq inv x fuel hn (Nat.le_of_lt hl) hf (Or.inl hl), hfc]
  simp only [membx_result, addr32_eq]
  rw [Nat.mod_eq_of_lt (show x.mem + j * x.size < 4294967296 by omega)]

theorem first_clear_three (c : Nat → Nat) :
    first_clear c 0 3 = [0, 1, 2].find? (fun i => !bit_is_set c i) ∧
    first_clear c 1 3 = [1, 2, 0].find? (fun i => !bit_is_set c i) ∧
    first_clear c 2 3 = [2, 0, 1].find? (fun i => !bit_is_set c i) :=
  ⟨rfl, rfl, rfl⟩

/-! ## The tested indices of the allocators -/

theorem memb_find_free_log_fst (m : memb) :
    ∀ (fuel i limit : Nat),
      (memb_find_free_log m fuel i limit).map Prod.fst = memb_find_free m fuel i limit := by
  intro fuel
  induction fuel with
  | zero => intro i limit; rfl
  | succ f ih =>
    intro i limit
    unfold memb_find_free_log memb_find_free
    by_cases hlt : i < limit
    · rw [if_pos hlt, if_pos hlt]
      by_cases hb : m.count (i >>> 3) &&& bit_mask i = 0
      · rw [if_pos hb, if_pos hb]; rfl
      · rw [if_neg hb, if_neg hb, ← ih]
        cases memb_find_free_log m f ((i + 1) % 65536) limit <;> rfl
    · rw [if_neg hlt, if_neg hlt]
      by_cases hc : m.last ≠ 0 ∧ i = m.num
      · rw [if_pos hc, if_pos hc]; exact ih _ _
      · rw [if_neg hc, if_neg hc]; rfl

theorem membx_find_free_log_fst (inv : Nat) (m : membx) :
    ∀ (fuel i limit : Nat),
      (membx_find_free_log inv m fuel i limit).map Prod.fst
        = membx_find_free inv m fuel i limit := by
  intro fuel
  induction fuel with
  | zero => intro i limit; rfl
  | succ f ih =>
    intro i limit
    unfold membx_find_free_log membx_find_free
    by_cases hlt : i < limit
    · rw [if_pos hlt, if_pos hlt]
      by_cases hb : m.count (i >>> 3) &&& bit_mask i = 0
      · rw [if_pos hb, if_pos hb]; rfl
      · rw [if_neg hb, if_neg hb, ← ih]
        cases membx_find_free_log inv m f ((i + 1) % 65536) limit <;> rfl
    · rw [if_neg hlt, if_neg hlt]
      by_cases hc : m.last ≠ 0 ∧ i = m.num
      · rw [if_pos hc, if_pos hc]; exact ih _ _
      · rw [if_neg hc, if_neg hc]; rfl

theorem memb_find_free_log_snd (m : memb) (hl : m.last < 65536) :
    ∀ (fuel i limit : Nat), limit < 65536 →
      (memb_find_free_log m fuel i limit).map Prod.snd
        = search_tested m.count m.last m.num fuel i limit := by
  intro fuel
  induction fuel with
  | zero => intro i limit _; rfl
  | succ f ih =>
    intro i limit hlim
    unfold memb_find_free_log search_tested
    by_cases hlt : i < limit
    · rw [if_pos hlt, if_pos hlt]
      have hi : (i + 1) % 65536 = i + 1 := Nat.mod_eq_of_lt (by omega)
      cases hb : bit_is_set m.count i
      · rw [if_pos ((mask_test_eq_zero m.count i).2 hb)]
        simp
      · have hne : ¬ (m.count (i >>> 3) &&& bit_mask i = 0) := by
          intro h0
          rw [(mask_test_eq_zero m.count i).1 h0] at hb
          cases hb
        rw [if_neg hne, hi, ← ih (i + 1) limit hlim]
        simp only [if_true]
        cases memb_find_free_log m f (i + 1) limit <;> rfl
    · rw [if_neg hlt, if_neg hlt]
      by_cases hc : m.last ≠ 0 ∧ i = m.num
      · rw [if_pos hc, if_pos hc]; exact ih 0 m.last hl
      · rw [if_neg hc, if_neg hc]; rfl

theorem membx_find_free_log_snd (inv : Nat) (m : membx) (hl : m.last < 65536) :
    ∀ (fuel i limit : Nat), limit < 65536 →
      (membx_find_free_log inv m fuel i limit).map Prod.snd
        = search_tested m.count m.last m.num fuel i limit := by
  intro fuel
  induction fuel with
  | zero => intro i limit _; rfl
  | succ f ih =>
    intro i limit hlim
    unfold membx_find_free_log search_tested
    by_cases hlt : i < limit
    · rw [if_pos hlt, if_pos hlt]
      have hi : (i + 1) % 65536 = i + 1 := Nat.mod_eq_of_lt (by omega)
      cases hb : bit_is_set m.count i
      · rw [if_pos ((mask_test_eq_zero m.count i).2 hb)]
        simp
      · have hne : ¬ (m.count (i >>> 3) &&& bit_mask i = 0) := by
          intro h0
          rw [(mask_test_eq_zero m.count i).1 h0] at hb
          cases hb
        rw [if_neg hne, hi, ← ih (i + 1) limit hlim]
        simp only [if_true]
        cases membx_find_free_log inv m f (i + 1) limit <;> rfl
    · rw [if_neg hlt, if_neg hlt]
      by_cases hc : m.last ≠ 0 ∧ i = m.num
      · rw [if_pos hc, if_pos hc]; exact ih 0 m.last hl
      · rw [if_neg hc, if_neg hc]; rfl

theorem search_tested_found (c : Nat → Nat) (l N : Nat) :
    ∀ (d fuel i j limit : Nat), i + d = j → j < limit → bit_is_set c j = false →
      (∀ k, i ≤ k → k < j → bit_is_set c k = true) → d + 1 ≤ fuel →
      search_tested c l N fuel i limit = some (List.range' i (d + 1)) := by
  intro d
  induction d with
  | zero =>
    intro fuel i j limit hij hj hclr _ hf
    obtain ⟨f, rfl⟩ : ∃ f, fuel = f + 1 := ⟨fuel - 1, by omega⟩
    have e : i = j := by omega
    subst e
    simp [search_tested, hj, hclr]
  | succ d ih =>
    intro fuel i j limit hij hj hclr hset hf
    obtain ⟨f, rfl⟩ : ∃ f, fuel = f + 1 := ⟨fuel - 1, by omega⟩
    have hlt : i < limit := by omega
    rw [search_tested, if_pos hlt, hset i (Nat.le_refl _) (by omega)]
    simp only [if_true]
    rw [ih f (i + 1) j limit (by omega) hj hclr (fun k hk1 hk2 => hset k (by omega) hk2)
      (by omega)]
    rw [List.range'_succ i (d + 1)]
    rfl

theorem search_tested_none (c : Nat → Nat) (l N : Nat) :
    ∀ (d fuel i limit : Nat), i + d = limit →
      (∀ k, i ≤ k → k < limit → bit_is_set c k = true) → d + 1 ≤ fuel →
      search_tested c l N fuel i limit
        = (search_tested c l N (fuel - d) limit limit).map (fun t => List.range' i d ++ t) := by
  intro d
  induction d with
  | zero =>
    intro fuel i limit hil _ _
    have e : i = limit := by omega
    subst e
    rw [Nat.sub_zero]
    cases search_tested c l N fuel i i <;> rfl
  | succ d ih =>
    intro fuel i limit hil hset hf
    obtain ⟨f, rfl⟩ : ∃ f, fuel = f + 1 := ⟨fuel - 1, by omega⟩
    have hlt : i < limit := by omega
    rw [search_tested, if_pos hlt, hset i (Nat.le_refl _) hlt]
    simp only [if_true]
    rw [ih f (i + 1) limit (by omega) (fun k hk1 hk2 => hset k (by omega) hk2) (by omega)]
    have e : f + 1 - (d + 1) = f - d := by omega
    rw [e, List.range'_succ i d]
    cases search_tested c l N (f - d) limit limit <;> rfl

theorem search_tested_exit (c : Nat → Nat) (l N f i : Nat) :
    search_tested c l N (f + 1) i i =
      if l ≠ 0 ∧ i = N then search_tested c l N f 0 l else some [] := by
  simp [search_tested]

theorem find_clear_range'_some (c : Nat → Nat) (n i j : Nat)
    (h : (List.range' i n).find? (fun k => !bit_is_set c k) = some j) :
    i ≤ j ∧ j < i + n ∧ bit_is_set c j = false ∧
      ∀ k, i ≤ k → k < j → bit_is_set c k = true := by
  obtain ⟨h1, h2, h3, h4⟩ := find_range'_some _ _ _ _ h
  refine ⟨h1, h2, by simpa using h3, ?_⟩
  intro k hk1 hk2
  have := h4 k hk1 hk2
  simpa using this

theorem find_clear_range'_none (c : Nat → Nat) (n i : Nat)
    (h : (List.range' i n).find? (fun k => !bit_is_set c k) = none) :
    ∀ k, i ≤ k → k < i + n → bit_is_set c k = true := by
  intro k hk1 hk2
  have := find_range'_none _ _ _ h k hk1 hk2
  simpa using this

/-- With enough fuel the search returns, and the indices it tested form an initial
segment of the circular order from the cursor. -/
theorem search_tested_prefix (c : Nat → Nat) (l N fuel : Nat) (hl : l ≤ N)
    (hf : N + 2 ≤ fuel) (h : l < N ∨ ∃ k, k < N ∧ bit_is_set c k = false) :
    ∃ t, search_tested c l N fuel l N = some t ∧ t <+: circ_order l N := by
  unfold circ_order
  cases hA : (List.range' l (N - l)).find? (fun k => !bit_is_set c k) with
  | some j =>
    obtain ⟨h1, h2, h3, h4⟩ := find_clear_range'_some c _ _ _ hA
    refine ⟨List.range' l (j - l + 1), ?_, ?_⟩
    · exact search_tested_found c l N (j - l) fuel l j N (by omega) (by omega) h3 h4
        (by omega)
    · exact (range'_take_found l (N - l) j (List.mem_of_find?_eq_some hA)).trans
        (List.prefix_append _ _)
  | none =>
    have hsetA := find_clear_range'_none c _ _ hA
    have stepA := search_tested_none c l N (N - l) fuel l N (by omega)
      (fun k hk1 hk2 => hsetA k hk1 (by omega)) (by omega)
    obtain ⟨f, hff⟩ : ∃ f, fuel - (N - l) = f + 1 := ⟨fuel - (N - l) - 1, by omega⟩
    rw [stepA, hff, search_tested_exit]
    by_cases h0 : l = 0
    · subst h0
      refine ⟨List.range' 0 (N - 0), ?_, by simp⟩
      simp
    · rw [if_pos ⟨h0, rfl⟩, List.range_eq_range']
      cases hB : (List.range' 0 l).find? (fun k => !bit_is_set c k) with
      | some j =>
        obtain ⟨h1, h2, h3, h4⟩ := find_clear_range'_some c _ _ _ hB
        refine ⟨List.range' l (N - l) ++ List.range' 0 (j + 1), ?_, ?_⟩
        · rw [search_tested_found c l N j f 0 j l (by omega) (by omega) h3 h4 (by omega)]
          rfl
        · rw [List.prefix_append_right_inj]
          exact range'_take_found 0 l j (List.mem_of_find?_eq_some hB)
      | none =>
        have hsetB := find_clear_range'_none c _ _ hB
        have hlN : l < N := by
          rcases h with h | ⟨k, hk, hc⟩
          · exact h
          · exfalso
            by_cases hkl : k < l
            · have := hsetB k (Nat.zero_le _) (by omega)
              rw [hc] at this; cases this
            · have := hsetA k (by omega) (by omega)
              rw [hc] at this; cases this
        have stepB := search_tested_none c l N l f 0 l (by omega)
          (fun k hk1 hk2 => hsetB k hk1 (by omega)) (by omega)
        obtain ⟨g, hg⟩ : ∃ g, f - l = g + 1 := ⟨f - l - 1, by omega⟩
        rw [stepB, hg, search_tested_exit, if_neg (by omega)]
        exact ⟨List.range' l (N - l) ++ (List.range' 0 l ++ []), rfl, by simp⟩

theorem circ_order_length (l N : Nat) (hl : l ≤ N) : (circ_order l N).length = N := by
  unfold circ_order
  rw [List.length_append, List.length_range', List.length_range]
  omega

theorem circ_order_nodup (l N : Nat) : (circ_order l N).Nodup := by
  unfold circ_order
  apply List.Nodup.append (List.nodup_range' l (N - l)) (List.nodup_range l)
  intro a h1 h2
  rw [List.mem_range'_1] at h1
  rw [List.mem_range] at h2
  omega

theorem prefix_circ_order_bounds (t : List Nat) (l N : Nat) (hl : l ≤ N)
    (h : t <+: circ_order l N) :
    t.length ≤ N ∧ t.Nodup ∧ ∀ k, k ∈ t → k < N := by
  refine ⟨?_, (circ_order_nodup l N).sublist h.sublist, ?_⟩
  · rw [← circ_order_length l N hl]; exact h.length_le
  · intro k hk
    exact (mem_circ_order l N k hl).1 (h.subset hk)

theorem option_pair_eq {α β : Type} (o : Option (α × β)) (a : α) (b : β)
    (h1 : o.map Prod.fst = some a) (h2 : o.map Prod.snd = some b) : o = some (a, b) := by
  cases o with
  | none => cases h1
  | some p =>
    obtain ⟨p1, p2⟩ := p
    have e1 : p1 = a := Option.some.inj h1
    have e2 : p2 = b := Option.some.inj h2
    rw [e1, e2]

theorem memb_alloc_log_bounds (m : memb) (fuel : Nat) (hn : m.num < 65536)
    (hl : m.last < m.num) (hf : m.num + 2 ≤ fuel) :
    ∃ res t, memb_alloc_log fuel m = some (res, t) ∧ memb_alloc fuel m = some res ∧
      t <+: circ_order m.last m.num := by
  obtain ⟨t, ht, hp⟩ := search_tested_prefix m.count m.last m.num fuel (Nat.le_of_lt hl) hf
    (Or.inl hl)
  have h1 := memb_find_free_log_fst m fuel m.last m.num
  have h2 := memb_find_free_log_snd m (by omega) fuel m.last m.num hn
  have ha := memb_alloc_eq m fuel hn (Nat.le_of_lt hl) hf (Or.inl hl)
  rw [ht] at h2
  refine ⟨_, t, ?_, ha, hp⟩
  apply option_pair_eq
  · rw [← ha]; exact h1
  · exact h2

theorem membx_alloc_log_bounds (inv : Nat) (x : membx) (fuel : Nat) (hn : x.num < 65536)
    (hl : x.last < x.num) (hf : x.num + 2 ≤ fuel) :
    ∃ res t, membx_alloc_log inv fuel x = some (res, t) ∧
      membx_alloc inv fuel x = some res ∧ t <+: circ_order x.last x.num := by
  obtain ⟨t, ht, hp⟩ := search_tested_prefix x.count x.last x.num fuel (Nat.le_of_lt hl) hf
    (Or.inl hl)
  have h1 := membx_find_free_log_fst inv x fuel x.last x.num
  have h2 := membx_find_free_log_snd inv x (by omega) fuel x.last x.num hn
  have ha := membx_alloc_eq inv x fuel hn (Nat.le_of_lt hl) hf (Or.inl hl)
  rw [ht] at h2
  refine ⟨_, t, ?_, ha, hp⟩
  apply option_pair_eq
  · rw [← ha]; exact h1
  · exact h2

theorem membx_get_next_log_bounds (inv fuel : Nat) (x : membx) (start : Nat)
    (h1 : 1 ≤ x.num) (hN : x.num < 65536) (hf : x.num ≤ fuel) :
    ∃ r t, membx_get_next_log inv fuel x start = some (r, t) ∧
      (membx_get_next inv fuel x start).2 = some r ∧
      t <+: circ_order (if start < x.num then start else 0) x.num := by
  have e : (if start ≥ x.num then 0 else start) = (if start < x.num then start else 0) := by
    by_cases h : start < x.num
    · rw [if_pos h, if_neg (by omega)]
    · rw [if_neg h, if_pos (by omega)]
  have hs : (if start < x.num then start else 0) < x.num := by
    split <;> omega
  obtain ⟨t, ht, hp⟩ := get_next_loop_log_eq inv x _ fuel hs hN hf
  have hlog : membx_get_next_log inv fuel x start
      = some ((match first_set x.count (if start < x.num then start else 0) x.num with
               | some j => (x.mem + j * x.size) % 4294967296
               | none => inv), t) := by
    unfold membx_get_next_log
    simp only [e]
    exact ht
  refine ⟨_, t, hlog, ?_, hp⟩
  rw [membx_get_next_eq, hlog]
  rfl

/-! ## Allocate, then free -/

theorem set_then_clear_bits (c : Nat → Nat) (j : Nat) (hc : bit_is_set c j = false) :
    ∀ k, bit_is_set (clear_bit (set_bit c j) j) k = bit_is_set c k := by
  intro k
  rw [bit_is_set_clear_bit, bit_is_set_set_bit]
  by_cases h : k = j
  · subst h; simp [hc]
  · simp [h]

theorem set_then_clear_bytes (c : Nat → Nat) (j : Nat) (hc : bit_is_set c j = false)
    (hb : c (j >>> 3) < 256) : clear_bit (set_bit c j) j = c := by
  have hbit : (c (j / 8)).testBit (j % 8) = false := by
    rw [← bit_is_set_eq]; exact hc
  unfold clear_bit set_bit
  rw [Function.update_same, Function.update_idem]
  apply Function.update_eq_self_iff.2
  rw [shr3_eq, and7_eq, bit_mask_eq]
  rw [shr3_eq] at hb
  apply Nat.eq_of_testBit_eq
  intro t
  have e : (256 : Nat) = 2 ^ 8 := rfl
  rw [e, Nat.testBit_mod_two_pow, Nat.testBit_and, Nat.testBit_mod_two_pow, Nat.testBit_or,
    Nat.testBit_two_pow]
  by_cases ht : t < 8
  · rw [clear_mask_testBit _ _ ht]
    by_cases htj : t = j % 8
    · subst htj; simp [hbit]
    · have h2 : ¬ j % 8 = t := fun e2 => htj e2.symm
      simp [ht, htj, h2]
  · have hlt : c (j / 8) < 2 ^ t :=
      Nat.lt_of_lt_of_le hb (by
        rw [e]; exact Nat.pow_le_pow_right (by decide) (by omega))
    rw [Nat.testBit_lt_two_pow hlt]
    simp [ht]

theorem memb_round_trip (m : memb) (fuel j : Nat) (hs : 0 < m.size) (hn : m.num < 65536)
    (hl : m.last < m.num) (hfit : m.mem + m.num * m.size < 65536) (hf : m.num + 2 ≤ fuel)
    (hfc : first_clear m.count m.last m.num = some j) :
    ∃ m1 m2, j < m.num ∧ memb_alloc fuel m = some (m1, m.mem + j * m.size) ∧
      memb_free_idx m1 (m.mem + j * m.size) = j ∧
      memb_free m1 (m.mem + j * m.size) = some m2 ∧
      (∀ k, bit_is_set m2.count k = bit_is_set m.count k) ∧
      ((∀ b, m.count b < 256) → m2.count = m.count) := by
  obtain ⟨hj, hjc⟩ := first_clear_some m.count m.last m.num j (Nat.le_of_lt hl) hfc
  have ha := memb_alloc_at m fuel j hn hl hf hfc (by omega) hs
  have hidx := memb_free_idx_block { m with count := set_bit m.count j, last := j } j hs hn
    (by show m.mem + m.num * m.size ≤ 65536; omega) hj
  have hfree := memb_free_eq { m with count := set_bit m.count j, last := j }
    (m.mem + j * m.size) hs
  rw [hidx] at hfree
  simp only [hj, if_true] at hfree
  exact ⟨_, _, hj, ha, hidx, hfree, set_then_clear_bits m.count j hjc,
    fun hb => set_then_clear_bytes m.count j hjc (hb _)⟩

theorem membx_round_trip (inv : Nat) (x : membx) (fuel j : Nat) (hs : 0 < x.size)
    (hsz : x.size < 65536) (hn : x.num < 65536) (hl : x.last < x.num)
    (hfit : x.mem + x.num * x.size < 4294967296) (hf : x.num + 2 ≤ fuel)
    (hfc : first_clear x.count x.last x.num = some j) :
    ∃ x1 x2, j < x.num ∧ membx_alloc inv fuel x = some (x1, x.mem + j * x.size) ∧
      membx_free_idx x1 (x.mem + j * x.size) = j ∧
      membx_free x1 (x.mem + j * x.size) = some x2 ∧
      (∀ k, bit_is_set x2.count k = bit_is_set x.count k) ∧
      ((∀ b, x.count b < 256) → x2.count = x.count) ∧
      (x.n_alloc < 65536 → x2.n_alloc = x.n_alloc) := by
  obtain ⟨hj, hjc⟩ := first_clear_some x.count x.last x.num j (Nat.le_of_lt hl) hfc
  have hlt : j * x.size < x.num * x.size := Nat.mul_lt_mul_of_pos_right hj hs
  have hmod : (x.mem + j * x.size) % 4294967296 = x.mem + j * x.size :=
    Nat.mod_eq_of_lt (by omega)
  have ha := membx_alloc_at inv x fuel j hn hl hf hfc (by omega) hs
  have hidx := membx_free_idx_block
    { x with count := set_bit x.count j, last := j, n_alloc := (x.n_alloc + 1) % 65536 }
    j hs hsz hn hj
  simp only [hmod] at hidx
  have hfree := membx_free_eq
    { x with count := set_bit x.count j, last := j, n_alloc := (x.n_alloc + 1) % 65536 }
    (x.mem + j * x.size) hs
  rw [hidx] at hfree
  simp only [hj, bit_set_after_set, and_self, if_true] at hfree
  refine ⟨_, _, hj, ha, hidx, hfree, set_then_clear_bits x.count j hjc,
    fun hb => set_then_clear_bytes x.count j hjc (hb _), ?_⟩
  intro hna
  show ((x.n_alloc + 1) % 65536 + 65535) % 65536 = x.n_alloc
  omega

theorem memb_inmemb_true_iff (m : memb) (a : Nat) (hfit : m.mem + m.num * m.size < 65536) :
    (memb_inmemb m a).2 = true ↔ m.mem ≤ a ∧ a < m.mem + m.num * m.size := by
  unfold memb_inmemb
  have h1 : (m.mem + (m.num * m.size) % 65536) % 65536 = m.mem + m.num * m.size := by
    rw [Nat.add_mod_mod]; exact Nat.mod_eq_of_lt hfit
  simp only [h1, Bool.and_eq_true, decide_eq_true_eq, ge_iff_le]

/-! ## Bitmap bytes touched by free -/

theorem memb_free_log_eq (m : memb) (a : Nat) (hs : 0 < m.size) :
    ∃ m1 t, memb_free_log m a = some (m1, t) ∧ memb_free m a = some m1 ∧
      ∀ k, k ∈ t → k < m.num := by
  unfold memb_free_log memb_free
  have hs0 : ¬ m.size = 0 := by omega
  simp only [hs0, if_false]
  generalize (((a % 65536 + (65536 - m.mem % 65536)) % 65536) / m.size) % 65536 = i
  by_cases hi : i < m.num
  · rw [if_pos hi, if_pos hi]
    refine ⟨_, _, rfl, rfl, ?_⟩
    intro k hk
    rw [List.mem_singleton] at hk
    rw [hk]; exact hi
  · rw [if_neg hi, if_neg hi]
    exact ⟨_, _, rfl, rfl, fun k hk => by cases hk⟩

theorem membx_free_log_eq (x : membx) (a : Nat) (hs : 0 < x.size) :
    ∃ x1 t, membx_free_log x a = some (x1, t) ∧ membx_free x a = some x1 ∧
      ∀ k, k ∈ t → k < x.num := by
  unfold membx_free_log membx_free
  have hs0 : ¬ x.size = 0 := by omega
  simp only [hs0, if_false]
  generalize (((a % 4294967296 + (4294967296 - x.mem % 4294967296)) % 4294967296)
      / x.size) % 65536 = i
  by_cases hi : i < x.num
  · rw [if_pos hi]
    have hmem : ∀ k, k ∈ [i] → k < x.num := by
      intro k hk
      rw [List.mem_singleton] at hk
      rw [hk]; exact hi
    by_cases hb : x.count (i >>> 3) &&& (1 <<< (i &&& 0x07)) ≠ 0
    · rw [if_pos hb, if_pos ⟨hi, hb⟩]
      exact ⟨_, _, rfl, rfl, hmem⟩
    · rw [if_neg hb, if_neg (fun h => hb h.2)]
      exact ⟨_, _, rfl, rfl, hmem⟩
  · rw [if_neg hi, if_neg (fun h => hi h.1)]
    exact ⟨_, _, rfl, rfl, fun k hk => by cases hk⟩

theorem byte_index_lt (k N : Nat) (h : k < N) : k >>> 3 < (N + 7) / 8 := by
  rw [shr3_eq]; omega

theorem init_length_eq (N : Nat) (h : N + 7 < 65536) :
    ((N + 7) % 65536) >>> 3 = (N + 7) / 8 := by
  rw [shr3_eq, Nat.mod_eq_of_lt h]

/-- The length (num + 7) >> 3 handed to memset is computed in 16-bit unsigned arithmetic:
from num = 65529 on the sum wraps, for num = 65535 the length is 0. -/
theorem init_length_wraps : ((65535 + 7) % 65536) >>> 3 = 0 ∧ (65535 + 7) / 8 = 8192 := by
  decide

/-! ## Claims -/

/-- C1: for a pool with last < num and at least one clear occupancy bit below num, both
memb_alloc and membx_alloc return (given fuel for num + 2 loop tests), choose the first
clear index j of the circular order last, ..., num - 1, 0, ..., last - 1, set bit j
(and no other bit), set last to j and return base + j * size in the address type
(exactly base + j * size when the pool region does not overflow it); membx_alloc also
adds one to n_alloc (in its unsigned short type, so exactly one below 65535). -/
theorem alloc_selects_first_clear (m : memb) (x : membx) (inv fuel : Nat) :
    (m.num < 65536 → m.last < m.num → (∃ k, k < m.num ∧ bit_is_set m.count k = false) →
      m.num + 2 ≤ fuel →
      ∃ j, first_clear m.count m.last m.num = some j ∧ j < m.num ∧
        bit_is_set m.count j = false ∧
        memb_alloc fuel m =
          some ({ m with count := set_bit m.count j, last := j },
            (m.mem + j * m.size) % 65536) ∧
        (∀ k, bit_is_set (set_bit m.count j) k = (decide (k = j) || bit_is_set m.count k)) ∧
        (m.mem + m.num * m.size < 65536 →
          (m.mem + j * m.size) % 65536 = m.mem + j * m.size)) ∧
    (x.num < 65536 → x.last < x.num → (∃ k, k < x.num ∧ bit_is_set x.count k = false) →
      x.num + 2 ≤ fuel →
      ∃ j, first_clear x.count x.last x.num = some j ∧ j < x.num ∧
        bit_is_set x.count j = false ∧
        membx_alloc inv fuel x =
          some ({ x with count := set_bit x.count j, last := j,
                         n_alloc := (x.n_alloc + 1) % 65536 },
            (x.mem + j * x.size) % 4294967296) ∧
        (∀ k, bit_is_set (set_bit x.count j) k = (decide (k = j) || bit_is_set x.count k)) ∧
        (x.n_alloc < 65535 → (x.n_alloc + 1) % 65536 = x.n_alloc + 1) ∧
        (x.mem + x.num * x.size < 4294967296 →
          (x.mem + j * x.size) % 4294967296 = x.mem + j * x.size)) := by
  constructor
  · intro hn hl hc hf
    obtain ⟨j, hj⟩ := first_clear_isSome m.count m.last m.num (Nat.le_of_lt hl) hc
    obtain ⟨hjn, hjc⟩ := first_clear_some m.count m.last m.num j (Nat.le_of_lt hl) hj
    refine ⟨j, hj, hjn, hjc, ?_, fun k => bit_is_set_set_bit m.count j k, ?_⟩
    · rw [memb_alloc_eq m fuel hn (Nat.le_of_lt hl) hf (Or.inl hl), hj]
      simp only [memb_result, addr16_eq]
    · intro hfit
      exact Nat.mod_eq_of_lt (block_addr_lt _ _ _ _ _ hjn hfit)
  · intro hn hl hc hf
    obtain ⟨j, hj⟩ := first_clear_isSome x.count x.last x.num (Nat.le_of_lt hl) hc
    obtain ⟨hjn, hjc⟩ := first_clear_some x.count x.last x.num j (Nat.le_of_lt hl) hj
    refine ⟨j, hj, hjn, hjc, ?_, fun k => bit_is_set_set_bit x.count j k, ?_, ?_⟩
    · rw [membx_alloc_eq inv x fuel hn (Nat.le_of_lt hl) hf (Or.inl hl), hj]
      simp only [membx_result, addr32_eq]
    · intro h; exact Nat.mod_eq_of_lt (by omega)
    · intro hfit
      exact Nat.mod_eq_of_lt (block_addr_lt _ _ _ _ _ hjn hfit)

/-- Witness of C1: the pools pool_a and xpool_a (three blocks, block 1 allocated, cursor
at 1) meet the hypotheses, and the first clear index of their circular order is 2. -/
theorem alloc_selects_first_clear_witness :
    first_clear pool_a.count pool_a.last pool_a.num = some 2 ∧
    (∃ j, first_clear pool_a.count pool_a.last pool_a.num = some j ∧ j < pool_a.num ∧
        bit_is_set pool_a.count j = false ∧
        memb_alloc 5 pool_a =
          some ({ pool_a with count := set_bit pool_a.count j, last := j },
            (pool_a.mem + j * pool_a.size) % 65536) ∧
        (∀ k, bit_is_set (set_bit pool_a.count j) k
          = (decide (k = j) || bit_is_set pool_a.count k)) ∧
        (pool_a.mem + pool_a.num * pool_a.size < 65536 →
          (pool_a.mem + j * pool_a.size) % 65536 = pool_a.mem + j * pool_a.size)) ∧
    (∃ j, first_clear xpool_a.count xpool_a.last xpool_a.num = some j ∧ j < xpool_a.num ∧
        bit_is_set xpool_a.count j = false ∧
        membx_alloc 4294967295 5 xpool_a =
          some ({ xpool_a with count := set_bit xpool_a.count j, last := j,
                               n_alloc := (xpool_a.n_alloc + 1) % 65536 },
            (xpool_a.mem + j * xpool_a.size) % 4294967296) ∧
        (∀ k, bit_is_set (set_bit xpool_a.count j) k
          = (decide (k = j) || bit_is_set xpool_a.count k)) ∧
        (xpool_a.n_alloc < 65535 → (xpool_a.n_alloc + 1) % 65536 = xpool_a.n_alloc + 1) ∧
        (xpool_a.mem + xpool_a.num * xpool_a.size < 4294967296 →
          (xpool_a.mem + j * xpool_a.size) % 4294967296
            = xpool_a.mem + j * xpool_a.size)) :=
  ⟨by decide,
   (alloc_selects_first_clear pool_a xpool_a 4294967295 5).1 (by decide) (by decide)
     ⟨2, by decide, by decide⟩ (by decide),
   (alloc_selects_first_clear pool_a xpool_a 4294967295 5).2 (by decide) (by decide)
     ⟨2, by decide, by decide⟩ (by decide)⟩

/-- C2: for a pool with last < num in which no block address equals the failure
sentinel, memb_alloc and membx_alloc return (given fuel for num + 2 loop tests), and
they return the sentinel (NULL, XMEM_INVALID_ADDR) if and only if every occupancy bit
below num is set; a failing call only resets last to 0: the bitmap, n_alloc and every
other field are as before. -/
theorem alloc_fails_iff_full (m : memb) (x : membx) (inv fuel : Nat) :
    (m.num < 65536 → m.last < m.num →
      (∀ j, j < m.num → (m.mem + j * m.size) % 65536 ≠ NULL) → m.num + 2 ≤ fuel →
      ∃ m1 r, memb_alloc fuel m = some (m1, r) ∧
        (r = NULL ↔ ∀ k, k < m.num → bit_is_set m.count k = true) ∧
        (r = NULL → m1 = { m with last := 0 })) ∧
    (x.num < 65536 → x.last < x.num →
      (∀ j, j < x.num → (x.mem + j * x.size) % 4294967296 ≠ inv) → x.num + 2 ≤ fuel →
      ∃ x1 r, membx_alloc inv fuel x = some (x1, r) ∧
        (r = inv ↔ ∀ k, k < x.num → bit_is_set x.count k = true) ∧
        (r = inv → x1 = { x with last := 0 })) := by
  constructor
  · intro hn hl hs hf
    rw [memb_alloc_eq m fuel hn (Nat.le_of_lt hl) hf (Or.inl hl)]
    cases hfc : first_clear m.count m.last m.num with
    | none =>
      refine ⟨_, _, rfl, ?_, fun _ => rfl⟩
      constructor
      · intro _; exact (first_clear_eq_none m.count m.last m.num (Nat.le_of_lt hl)).1 hfc
      · intro _; rfl
    | some j =>
      obtain ⟨hjn, hjc⟩ := first_clear_some m.count m.last m.num j (Nat.le_of_lt hl) hfc
      have hne : (m.mem + (j * m.size) % 65536) % 65536 ≠ NULL := by
        rw [addr16_eq]; exact hs j hjn
      refine ⟨_, _, rfl, ?_, fun h => absurd h hne⟩
      constructor
      · intro h; exact absurd h hne
      · intro h; have := h j hjn; rw [hjc] at this; cases this
  · intro hn hl hs hf
    rw [membx_alloc_eq inv x fuel hn (Nat.le_of_lt hl) hf (Or.inl hl)]
    cases hfc : first_clear x.count x.last x.num with
    | none =>
      refine ⟨_, _, rfl, ?_, fun _ => rfl⟩
      constructor
      · intro _; exact (first_clear_eq_none x.count x.last x.num (Nat.le_of_lt hl)).1 hfc
      · intro _; rfl
    | some j =>
      obtain ⟨hjn, hjc⟩ := first_clear_some x.count x.last x.num j (Nat.le_of_lt hl) hfc
      have hne : (x.mem + ((j % 4294967296) * (x.size % 4294967296)) % 4294967296)
          % 4294967296 ≠ inv := by
        rw [addr32_eq]; exact hs j hjn
      refine ⟨_, _, rfl, ?_, fun h => absurd h hne⟩
      constructor
      · intro h; exact absurd h hne
      · intro h; have := h j hjn; rw [hjc] at this; cases this

/-- Witness of C2: the full pools pool_full and xpool_full meet the hypotheses (with
XMEM_INVALID_ADDR taken as 0xFFFFFFFF), and both allocators return the sentinel on
them. -/
theorem alloc_fails_iff_full_witness :
    (memb_alloc 5 pool_full).map Prod.snd = some NULL ∧
    (membx_alloc 4294967295 5 xpool_full).map Prod.snd = some 4294967295 ∧
    (∃ m1 r, memb_alloc 5 pool_full = some (m1, r) ∧
        (r = NULL ↔ ∀ k, k < pool_full.num → bit_is_set pool_full.count k = true) ∧
        (r = NULL → m1 = { pool_full with last := 0 })) ∧
    (∃ x1 r, membx_alloc 4294967295 5 xpool_full = some (x1, r) ∧
        (r = 4294967295 ↔ ∀ k, k < xpool_full.num → bit_is_set xpool_full.count k = true) ∧
        (r = 4294967295 → x1 = { xpool_full with last := 0 })) :=
  ⟨by decide, by decide,
   (alloc_fails_iff_full pool_full xpool_full 4294967295 5).1 (by decide) (by decide)
     (by decide) (by decide),
   (alloc_fails_iff_full pool_full xpool_full 4294967295 5).2 (by decide) (by decide)
     (by decide) (by decide)⟩

/-- C3 (capacity): on a pool of N = num blocks whose occupancy bits below N are all
clear and whose cursor is below N (the state after init), N + 1 consecutive allocate
calls all return; each of the first N calls succeeds, returning the address of a
block of the pool (different from the failure sentinel as soon as no block address
equals the sentinel), the pool is then full, and call N + 1 returns the failure
sentinel. Stated for memb_alloc and for membx_alloc. -/
theorem alloc_capacity_bound (m : memb) (x : membx) (inv fuel : Nat) :
    (m.num < 65536 → m.last < m.num → (∀ k, k < m.num → bit_is_set m.count k = false) →
      m.num + 2 ≤ fuel →
      ∃ m1 as, memb_alloc_seq fuel (m.num + 1) m = some (m1, as ++ [NULL]) ∧
        as.length = m.num ∧
        (∀ r, r ∈ as → ∃ j, j < m.num ∧ r = (m.mem + j * m.size) % 65536) ∧
        ((∀ j, j < m.num → (m.mem + j * m.size) % 65536 ≠ NULL) → ∀ r, r ∈ as → r ≠ NULL) ∧
        (∀ k, k < m.num → bit_is_set m1.count k = true)) ∧
    (x.num < 65536 → x.last < x.num → (∀ k, k < x.num → bit_is_set x.count k = false) →
      x.num + 2 ≤ fuel →
      ∃ x1 as, membx_alloc_seq inv fuel (x.num + 1) x = some (x1, as ++ [inv]) ∧
        as.length = x.num ∧
        (∀ r, r ∈ as → ∃ j, j < x.num ∧ r = (x.mem + j * x.size) % 4294967296) ∧
        ((∀ j, j < x.num → (x.mem + j * x.size) % 4294967296 ≠ inv) →
          ∀ r, r ∈ as → r ≠ inv) ∧
        (∀ k, k < x.num → bit_is_set x1.count k = true)) := by
  constructor
  · intro hn hl hclr hf
    have h0 := live_bits_none m.count m.num hclr
    obtain ⟨m1, as, hseq, hlen, hres, hfin⟩ :=
      memb_alloc_seq_run fuel m.num hn hf m.num m rfl hl (by omega)
    refine ⟨m1, as, hseq, hlen, hres, ?_, hfin⟩
    intro hs r hr
    obtain ⟨j, hj, rfl⟩ := hres r hr
    exact hs j hj
  · intro hn hl hclr hf
    have h0 := live_bits_none x.count x.num hclr
    obtain ⟨x1, as, hseq, hlen, hres, hfin⟩ :=
      membx_alloc_seq_run inv fuel x.num hn hf x.num x rfl hl (by omega)
    refine ⟨x1, as, hseq, hlen, hres, ?_, hfin⟩
    intro hs r hr
    obtain ⟨j, hj, rfl⟩ := hres r hr
    exact hs j hj

/-- Witness of C3: memb_init and membx_init turn pool_a and xpool_a (three blocks, cursor
at 1) into pools that meet the hypotheses; the four calls return the blocks 1, 2, 0
and then the sentinel. -/
theorem alloc_capacity_bound_witness :
    (memb_alloc_seq 5 4 (memb_init pool_a)).map Prod.snd = some [7172, 7176, 7168, NULL] ∧
    (membx_alloc_seq 4294967295 5 4 (membx_init (fun _ => 4096) 4294967295 xpool_a).1).map
      Prod.snd = some [4100, 4104, 4096, 4294967295] ∧
    (∃ m1 as, memb_alloc_seq 5 ((memb_init pool_a).num + 1) (memb_init pool_a)
        = some (m1, as ++ [NULL]) ∧ as.length = (memb_init pool_a).num) ∧
    (∃ x1 as, membx_alloc_seq 4294967295 5
        ((membx_init (fun _ => 4096) 4294967295 xpool_a).1.num + 1)
        (membx_init (fun _ => 4096) 4294967295 xpool_a).1
        = some (x1, as ++ [4294967295]) ∧
        as.length = (membx_init (fun _ => 4096) 4294967295 xpool_a).1.num) := by
  have h := alloc_capacity_bound (memb_init pool_a) (membx_init (fun _ => 4096) 4294967295 xpool_a).1
    4294967295 5
  obtain ⟨m1, as, h1, h2, _⟩ := h.1 (by decide) (by decide) (by decide) (by decide)
  obtain ⟨x1, bs, h3, h4, _⟩ := h.2 (by decide) (by decide) (by decide) (by decide)
  exact ⟨by decide, by decide, ⟨m1, as, h1, h2⟩, ⟨x1, bs, h3, h4⟩⟩

/-- C4: for a local pool with size at least 1 whose block region lies inside the 16-bit
address space, memb_free with an address outside [mem, mem + num * size), below mem
included, returns the pool unchanged in every field. -/
theorem memb_free_rejects_outside (m : memb) (a : Nat) (hs : 0 < m.size)
    (hfit : m.mem + m.num * m.size ≤ 65536) (ha : a < 65536)
    (hout : ¬ (m.mem ≤ a ∧ a < m.mem + m.num * m.size)) :
    memb_free m a = some m := by
  unfold memb_free
  have hs0 : ¬ m.size = 0 := by omega
  simp only [hs0, if_false]
  by_cases hnum : m.num = 0
  · simp [hnum]
  · have hpos : 0 < m.num * m.size := Nat.mul_pos (by omega) hs
    generalize hT : m.num * m.size = T at hfit hout hpos
    have hd : T ≤ (a % 65536 + (65536 - m.mem % 65536)) % 65536 := by omega
    have hq : m.num ≤ ((a % 65536 + (65536 - m.mem % 65536)) % 65536) / m.size := by
      rw [Nat.le_div_iff_mul_le hs, hT]; exact hd
    have hlt : ((a % 65536 + (65536 - m.mem % 65536)) % 65536) / m.size < 65536 :=
      Nat.lt_of_le_of_lt (Nat.div_le_self _ _) (Nat.mod_lt _ (by decide))
    rw [Nat.mod_eq_of_lt hlt]
    rw [if_neg (by omega)]

/-- Witness of C4: pool_a occupies [7168, 7180); the address 7167 just below it meets
the hypotheses, and so does 7180 just above it. -/
theorem memb_free_rejects_outside_witness :
    memb_free pool_a 7167 = some pool_a ∧ memb_free pool_a 7180 = some pool_a :=
  ⟨memb_free_rejects_outside pool_a 7167 (by decide) (by decide) (by decide) (by decide),
   memb_free_rejects_outside pool_a 7180 (by decide) (by decide) (by decide) (by decide)⟩

/-- C5 (the code at the failing inputs): the offset 266240 = 4096 + 65536 * 4 lies
outside the region [4096, 4108) of xpool_full, yet membx_free clears the occupancy bit
of block 0 and decrements n_alloc from 3 to 2; the offset 0 lies below the region of
xpool_high, which starts at 262144, and membx_free does the same there. -/
theorem membx_free_aliases_outside :
    ¬ (xpool_full.mem ≤ 266240 ∧ 266240 < xpool_full.mem + xpool_full.num * xpool_full.size) ∧
    (membx_free xpool_full 266240).map (fun x => (bit_is_set x.count 0, x.n_alloc))
      = some (false, 2) ∧
    ¬ (xpool_high.mem ≤ 0 ∧ 0 < xpool_high.mem + xpool_high.num * xpool_high.size) ∧
    (membx_free xpool_high 0).map (fun x => (bit_is_set x.count 0, x.n_alloc))
      = some (false, 2) := by
  decide

/-- C6: on an external pool with size at least 1, last < num and n_alloc equal to the
number of set occupancy bits below num, membx_alloc returns (given fuel for num + 2
loop tests) a pool with the same equality, membx_free with any offset p returns a
pool with the same equality, and membx_get_next hands the pool back unchanged. -/
theorem live_count_preserved (inv fuel : Nat) (x : membx) (p s : Nat) (hs : 0 < x.size)
    (hn : x.num < 65536) (hl : x.last < x.num)
    (hc : x.n_alloc = live_bits x.count x.num) (hf : x.num + 2 ≤ fuel) :
    (∃ x1 r, membx_alloc inv fuel x = some (x1, r) ∧
      x1.n_alloc = live_bits x1.count x1.num) ∧
    (∃ x1, membx_free x p = some x1 ∧ x1.n_alloc = live_bits x1.count x1.num) ∧
    (membx_get_next inv fuel x s).1 = x := by
  refine ⟨?_, membx_free_live x p hs hn hc, rfl⟩
  have hle := live_bits_le x.count x.num
  rcases Nat.lt_or_ge (live_bits x.count x.num) x.num with hlt | hge
  · obtain ⟨j, hjn, hjc, hal⟩ := membx_alloc_free_slot inv x fuel hn hl hf hlt
    refine ⟨_, _, hal, ?_⟩
    have h1 := live_bits_set x.count j hjc x.num hjn
    show (x.n_alloc + 1) % 65536 = live_bits (set_bit x.count j) x.num
    omega
  · refine ⟨_, _, membx_alloc_full inv x fuel hn hl hf (by omega), ?_⟩
    exact hc

/-- Witness of C6: xpool_a (block 1 allocated, n_alloc = 1) meets the hypotheses. -/
theorem live_count_preserved_witness :
    xpool_a.n_alloc = live_bits xpool_a.count xpool_a.num ∧
    (∃ x1 r, membx_alloc 4294967295 5 xpool_a = some (x1, r) ∧
      x1.n_alloc = live_bits x1.count x1.num) ∧
    (∃ x1, membx_free xpool_a 4100 = some x1 ∧ x1.n_alloc = live_bits x1.count x1.num) ∧
    (membx_get_next 4294967295 5 xpool_a 0).1 = xpool_a :=
  ⟨by decide,
   live_count_preserved 4294967295 5 xpool_a 4100 0 (by decide) (by decide) (by decide)
     (by decide) (by decide)⟩

/-- C7 (the code at the failing input): whatever fram_alloc returns, membx_init leaves
n_alloc of xpool_a at 1 although no occupancy bit below num is set afterwards; in
general membx_init writes neither n_alloc nor last. -/
theorem membx_init_keeps_n_alloc (fram_alloc : Nat → Nat) (err : Nat) :
    (membx_init fram_alloc err xpool_a).1.n_alloc = 1 ∧
    live_bits (membx_init fram_alloc err xpool_a).1.count
      (membx_init fram_alloc err xpool_a).1.num = 0 ∧
    (∀ x : membx, (membx_init fram_alloc err x).1.n_alloc = x.n_alloc ∧
      (membx_init fram_alloc err x).1.last = x.last) :=
  ⟨rfl,
   (by decide : live_bits (memset0 xpool_a.count (((xpool_a.num + 7) % 65536) >>> 3))
     xpool_a.num = 0),
   fun _ => ⟨rfl, rfl⟩⟩

/-- C8: for a local pool whose block region lies inside the 16-bit address space (the
end address mem + num * size is itself an address), memb_inmemb is true exactly for
the addresses a with mem <= a < mem + num * size, and it hands the pool back
unchanged. -/
theorem memb_inmemb_iff (m : memb) (a : Nat) (hfit : m.mem + m.num * m.size < 65536) :
    ((memb_inmemb m a).2 = true ↔ m.mem ≤ a ∧ a < m.mem + m.num * m.size) ∧
    (memb_inmemb m a).1 = m := by
  refine ⟨?_, rfl⟩
  unfold memb_inmemb
  have h1 : (m.mem + (m.num * m.size) % 65536) % 65536 = m.mem + m.num * m.size := by
    rw [Nat.add_mod_mod]; exact Nat.mod_eq_of_lt hfit
  simp only [h1, Bool.and_eq_true, decide_eq_true_eq, ge_iff_le]

/-- Witness of C8: pool_a occupies [7168, 7180); 7179 is inside, 7180 is not. -/
theorem memb_inmemb_iff_witness :
    (memb_inmemb pool_a 7179).2 = true ∧ (memb_inmemb pool_a 7180).2 = false ∧
    ((memb_inmemb pool_a 7179).2 = true ↔
      pool_a.mem ≤ 7179 ∧ 7179 < pool_a.mem + pool_a.num * pool_a.size) :=
  ⟨by decide, by decide, (memb_inmemb_iff pool_a 7179 (by decide)).1⟩

/-- C9 (idempotent free): for a pool with size at least 1 and any address or offset a,
free returns, and a second free with the same a returns exactly the pool reached
after the first call; for the external pool this includes the bitmap and n_alloc, so
n_alloc is decremented at most once. -/
theorem free_idempotent (m : memb) (x : membx) (a : Nat) :
    (0 < m.size → ∃ m1, memb_free m a = some m1 ∧ memb_free m1 a = some m1) ∧
    (0 < x.size → ∃ x1, membx_free x a = some x1 ∧ membx_free x1 a = some x1 ∧
      (x1.n_alloc = x.n_alloc ∨ x1.n_alloc = (x.n_alloc + 65535) % 65536)) := by
  constructor
  · intro hs
    by_cases hi : memb_free_idx m a < m.num
    · refine ⟨{ m with count := clear_bit m.count (memb_free_idx m a) }, ?_, ?_⟩
      · rw [memb_free_eq m a hs, if_pos hi]
      · rw [memb_free_eq { m with count := clear_bit m.count (memb_free_idx m a) } a hs]
        have e : memb_free_idx { m with count := clear_bit m.count (memb_free_idx m a) } a
            = memb_free_idx m a := rfl
        rw [e]
        dsimp only
        rw [if_pos hi, clear_bit_idem]
    · refine ⟨m, ?_, ?_⟩ <;> rw [memb_free_eq m a hs, if_neg hi]
  · intro hs
    by_cases hi : membx_free_idx x a < x.num ∧ bit_is_set x.count (membx_free_idx x a) = true
    · generalize hx1 : ({ x with count := clear_bit x.count (membx_free_idx x a),
                                 n_alloc := (x.n_alloc + 65535) % 65536 } : membx) = x1
      have hsz : x1.size = x.size := by rw [← hx1]
      have e : membx_free_idx x1 a = membx_free_idx x a := by
        rw [← hx1]; simp only [membx_free_idx]
      have hb : bit_is_set x1.count (membx_free_idx x a) = false := by
        rw [← hx1]
        show bit_is_set (clear_bit x.count (membx_free_idx x a)) (membx_free_idx x a) = false
        rw [bit_is_set_clear_bit]; simp
      refine ⟨x1, ?_, ?_, Or.inr (by rw [← hx1])⟩
      · rw [membx_free_eq x a hs, if_pos hi, hx1]
      · rw [membx_free_eq x1 a (by omega), e, hb]
        simp
    · refine ⟨x, ?_, ?_, Or.inl rfl⟩ <;> rw [membx_free_eq x a hs, if_neg hi]

/-- Witness of C9: freeing block 1 of pool_a and of xpool_a twice; the second call
changes nothing, and n_alloc of xpool_a goes from 1 to 0 once. -/
theorem free_idempotent_witness :
    ((membx_free xpool_a 4100).map fun x => x.n_alloc) = some 0 ∧
    (∃ m1, memb_free pool_a 7172 = some m1 ∧ memb_free m1 7172 = some m1) ∧
    (∃ x1, membx_free xpool_a 4100 = some x1 ∧ membx_free x1 4100 = some x1 ∧
      (x1.n_alloc = xpool_a.n_alloc ∨ x1.n_alloc = (xpool_a.n_alloc + 65535) % 65536)) :=
  ⟨by decide, (free_idempotent pool_a xpool_a 7172).1 (by decide),
   (free_idempotent pool_a xpool_a 4100).2 (by decide)⟩

/-- C10 (free/reuse round trip): for a pool with size at least 1 in which all num blocks
are allocated and whose cursor obeys the invariant of the data model, last < num
(the proof needs last <= num only), and every index i < num, freeing the address
base + i * size returns and clears bit i, and the next allocate returns (given fuel
for num + 2 loop tests) the address base + i * size again, with the pool full again
and last = i. Stated for the local pool (block region inside the 16-bit address
space) and for the external pool (where n_alloc is also back at its value). -/
theorem free_then_alloc_reuses (m : memb) (x : membx) (inv fuel i : Nat) :
    (0 < m.size → m.num < 65536 → m.last ≤ m.num → m.mem + m.num * m.size ≤ 65536 →
      (∀ k, k < m.num → bit_is_set m.count k = true) → i < m.num → m.num + 2 ≤ fuel →
      ∃ m1 m2, memb_free m (m.mem + i * m.size) = some m1 ∧
        bit_is_set m1.count i = false ∧
        memb_alloc fuel m1 = some (m2, m.mem + i * m.size) ∧
        (∀ k, k < m.num → bit_is_set m2.count k = true) ∧ m2.last = i) ∧
    (0 < x.size → x.size < 65536 → x.num < 65536 → x.last ≤ x.num →
      (∀ k, k < x.num → bit_is_set x.count k = true) → i < x.num → x.num + 2 ≤ fuel →
      ∃ x1 x2, membx_free x ((x.mem + i * x.size) % 4294967296) = some x1 ∧
        bit_is_set x1.count i = false ∧
        membx_alloc inv fuel x1 = some (x2, (x.mem + i * x.size) % 4294967296) ∧
        (∀ k, k < x.num → bit_is_set x2.count k = true) ∧ x2.last = i ∧
        (x.n_alloc < 65536 → x2.n_alloc = x.n_alloc)) := by
  constructor
  · intro hs hn hl hfit hall hi hf
    have hidx := memb_free_idx_block m i hs hn hfit hi
    have hc : bit_is_set (clear_bit m.count i) i = false := by
      rw [bit_is_set_clear_bit]; simp
    have hlt : i * m.size < m.num * m.size := Nat.mul_lt_mul_of_pos_right hi hs
    refine ⟨{ m with count := clear_bit m.count i },
      { m with count := set_bit (clear_bit m.count i) i, last := i }, ?_, hc, ?_,
      refill_all_set m.count m.num i hall, rfl⟩
    · rw [memb_free_eq m _ hs, hidx, if_pos hi]
    · rw [memb_alloc_eq { m with count := clear_bit m.count i } fuel hn hl hf
        (Or.inr ⟨i, hi, hc⟩)]
      dsimp only
      rw [first_clear_only m.count m.last m.num i hl hi hall]
      simp only [memb_result, addr16_eq]
      rw [Nat.mod_eq_of_lt (by omega)]
  · intro hs hsz hn hl hall hi hf
    have hidx := membx_free_idx_block x i hs hsz hn hi
    have hc : bit_is_set (clear_bit x.count i) i = false := by
      rw [bit_is_set_clear_bit]; simp
    refine ⟨{ x with count := clear_bit x.count i, n_alloc := (x.n_alloc + 65535) % 65536 },
      { x with count := set_bit (clear_bit x.count i) i, last := i,
               n_alloc := ((x.n_alloc + 65535) % 65536 + 1) % 65536 }, ?_, hc, ?_,
      refill_all_set x.count x.num i hall, rfl, ?_⟩
    · rw [membx_free_eq x _ hs, hidx, if_pos ⟨hi, hall i hi⟩]
    · rw [membx_alloc_eq inv
        { x with count := clear_bit x.count i, n_alloc := (x.n_alloc + 65535) % 65536 }
        fuel hn hl hf (Or.inr ⟨i, hi, hc⟩)]
      dsimp only
      rw [first_clear_only x.count x.last x.num i hl hi hall]
      simp only [membx_result, addr32_eq]
    · intro hna
      show ((x.n_alloc + 65535) % 65536 + 1) % 65536 = x.n_alloc
      omega

/-- Witness of C10: the full pools pool_full and xpool_full (cursor 2) meet
the hypotheses; block 1 is freed and handed out again at the same address. -/
theorem free_then_alloc_reuses_witness :
    ((memb_free pool_full 7172).bind (memb_alloc 5)).map Prod.snd = some 7172 ∧
    ((membx_free xpool_full 4100).bind (membx_alloc 4294967295 5)).map Prod.snd
      = some 4100 ∧
    (∃ m1 m2, memb_free pool_full (pool_full.mem + 1 * pool_full.size) = some m1 ∧
        bit_is_set m1.count 1 = false ∧
        memb_alloc 5 m1 = some (m2, pool_full.mem + 1 * pool_full.size) ∧
        (∀ k, k < pool_full.num → bit_is_set m2.count k = true) ∧ m2.last = 1) ∧
    (∃ x1 x2, membx_free xpool_full ((xpool_full.mem + 1 * xpool_full.size) % 4294967296)
          = some x1 ∧
        bit_is_set x1.count 1 = false ∧
        membx_alloc 4294967295 5 x1
          = some (x2, (xpool_full.mem + 1 * xpool_full.size) % 4294967296) ∧
        (∀ k, k < xpool_full.num → bit_is_set x2.count k = true) ∧ x2.last = 1 ∧
        (xpool_full.n_alloc < 65536 → x2.n_alloc = xpool_full.n_alloc)) :=
  ⟨by decide, by decide,
   (free_then_alloc_reuses pool_full xpool_full 4294967295 5 1).1 (by decide) (by decide)
     (by decide) (by decide) (by decide) (by decide) (by decide),
   (free_then_alloc_reuses pool_full xpool_full 4294967295 5 1).2 (by decide) (by decide)
     (by decide) (by decide) (by decide) (by decide) (by decide)⟩

/-- C11: for an external pool with num at least 1 and any start index, with s the start
index if it is below num and 0 otherwise, membx_get_next returns (given fuel for num
loop rounds) base + j * size as a 32-bit offset, where j is the first index of the
circular order s, ..., num - 1, 0, ..., s - 1 whose occupancy bit is set, and it
returns XMEM_INVALID_ADDR exactly in the case that no bit below num is set. The
block chosen has its bit set, and (block offsets being distinct for a size from 1
to 65535) no block with a clear bit has the returned offset. The pool is handed
back unchanged. -/
theorem membx_get_next_first_set (inv fuel : Nat) (m : membx) (start s : Nat)
    (h1 : 1 ≤ m.num) (hN : m.num < 65536)
    (hs : s = if start < m.num then start else 0) (hf : m.num ≤ fuel) :
    (membx_get_next inv fuel m start).1 = m ∧
    (∀ j, first_set m.count s m.num = some j →
      (membx_get_next inv fuel m start).2 = some ((m.mem + j * m.size) % 4294967296) ∧
      j < m.num ∧ bit_is_set m.count j = true ∧
      (0 < m.size → m.size < 65536 → ∀ k, k < m.num →
        (m.mem + k * m.size) % 4294967296 = (m.mem + j * m.size) % 4294967296 →
        bit_is_set m.count k = true)) ∧
    (first_set m.count s m.num = none → (membx_get_next inv fuel m start).2 = some inv) ∧
    (first_set m.count s m.num = none ↔ ∀ k, k < m.num → bit_is_set m.count k = false) := by
  have hsn : s ≤ m.num := by
    rw [hs]; split <;> omega
  have hres := membx_get_next_result inv fuel m start h1 hN hf
  rw [← hs] at hres
  refine ⟨rfl, ?_, ?_, first_set_eq_none m.count s m.num hsn⟩
  · intro j hj
    obtain ⟨hjn, hjs⟩ := first_set_some m.count s m.num j hsn hj
    rw [hj] at hres
    refine ⟨hres, hjn, hjs, ?_⟩
    intro hsz hsz2 k hk hkj
    have := addr32_inj m.mem m.size k j hsz hsz2 (by omega) (by omega) hkj
    rw [this]; exact hjs
  · intro hnone
    rw [hnone] at hres
    exact hres

/-- Witness of C11: xpool_b has ten blocks with 2, 5 and 7 allocated; from start index 6
the block 7 at offset 4124 is returned, and from start index 8 the search wraps to
block 2 at offset 4104. -/
theorem membx_get_next_first_set_witness :
    (membx_get_next 4294967295 10 xpool_b 6).2 = some 4124 ∧
    (membx_get_next 4294967295 10 xpool_b 8).2 = some 4104 ∧
    first_set xpool_b.count 8 xpool_b.num = some 2 ∧
    ((membx_get_next 4294967295 10 xpool_b 8).2
        = some ((xpool_b.mem + 2 * xpool_b.size) % 4294967296) ∧
      2 < xpool_b.num ∧ bit_is_set xpool_b.count 2 = true ∧
      (0 < xpool_b.size → xpool_b.size < 65536 → ∀ k, k < xpool_b.num →
        (xpool_b.mem + k * xpool_b.size) % 4294967296
          = (xpool_b.mem + 2 * xpool_b.size) % 4294967296 →
        bit_is_set xpool_b.count k = true)) :=
  ⟨by decide, by decide, by decide,
   (membx_get_next_first_set 4294967295 10 xpool_b 8 8 (by decide) (by decide) (by decide)
     (by decide)).2.1 2 (by decide)⟩

/-- C12 (iteration coverage): for an external pool with num and size at least 1 and L
its set of allocated block indices (non-empty or not), the iteration that starts at start index
0 and calls membx_get_next again with the returned block index plus one returns, in
its first |L| calls (given fuel for num loop rounds each), the offsets of the
blocks of L in ascending index order: every block of L exactly once, and no offset
of a block whose bit is clear. -/
theorem membx_iterate_covers (inv fuel : Nat) (m : membx) (h1 : 1 ≤ m.num)
    (hN : m.num < 65536) (hs : 1 ≤ m.size) (hsz : m.size < 65536)
    (hf : m.num ≤ fuel) :
    membx_iterate inv fuel m (live_indices m.count m.num).length 0
      = some ((live_indices m.count m.num).map
          (fun j => (m.mem + j * m.size) % 4294967296)) ∧
    (∀ j, j ∈ live_indices m.count m.num ↔ j < m.num ∧ bit_is_set m.count j = true) ∧
    ((live_indices m.count m.num).map (fun j => (m.mem + j * m.size) % 4294967296)).Nodup ∧
    (∀ r, r ∈ (live_indices m.count m.num).map (fun j => (m.mem + j * m.size) % 4294967296) →
      ∀ k, k < m.num → (m.mem + k * m.size) % 4294967296 = r →
        bit_is_set m.count k = true) := by
  have hinj : ∀ j, j ∈ live_indices m.count m.num → ∀ k, k < m.num →
      (m.mem + k * m.size) % 4294967296 = (m.mem + j * m.size) % 4294967296 → k = j := by
    intro j hj k hk h
    have hjn := ((live_indices_mem m.count m.num j).1 hj).1
    exact addr32_inj m.mem m.size k j hs hsz (by omega) (by omega) h
  refine ⟨?_, live_indices_mem m.count m.num, ?_, ?_⟩
  · have := membx_iterate_from inv fuel m hN hs hsz hf m.num m.num 0 (Nat.le_refl _)
      (by omega)
    unfold live_indices
    rw [List.range_eq_range']
    exact this
  · apply List.Nodup.map_on
    · intro a ha b hb hab
      exact hinj b hb a ((live_indices_mem m.count m.num a).1 ha).1 hab
    · unfold live_indices
      exact (List.nodup_range m.num).filter _
  · intro r hr k hk hkr
    obtain ⟨j, hj, rfl⟩ := List.mem_map.1 hr
    rw [hinj j hj k hk hkr]
    exact ((live_indices_mem m.count m.num j).1 hj).2

/-- Witness of C12: xpool_b has ten blocks with 2, 5 and 7 allocated; three calls return
the offsets 4104, 4116 and 4124 of these blocks. -/
theorem membx_iterate_covers_witness :
    live_indices xpool_b.count xpool_b.num = [2, 5, 7] ∧
    membx_iterate 4294967295 10 xpool_b 3 0 = some [4104, 4116, 4124] ∧
    membx_iterate 4294967295 10 xpool_b (live_indices xpool_b.count xpool_b.num).length 0
      = some ((live_indices xpool_b.count xpool_b.num).map
          (fun j => (xpool_b.mem + j * xpool_b.size) % 4294967296)) :=
  ⟨by decide, by decide,
   (membx_iterate_covers 4294967295 10 xpool_b (by decide) (by decide) (by decide)
     (by decide) (by decide)).1⟩

/-- C13 (cursor invariant): for a pool with num at least 1 and last < num, the pool
reached by init, by allocate (which returns, successful or failed, given fuel for
num + 2 loop tests), by free with any argument (which returns when size is at least
1) and by membx_get_next or memb_inmemb again satisfies last < num. Stated for the
local and for the external pool. -/
theorem cursor_invariant (m : memb) (x : membx) (inv fuel a s : Nat)
    (fram_alloc : Nat → Nat) (err : Nat) :
    (1 ≤ m.num → m.num < 65536 → m.last < m.num → m.num + 2 ≤ fuel →
      (memb_init m).last < (memb_init m).num ∧
      (∃ m1 r, memb_alloc fuel m = some (m1, r) ∧ m1.last < m1.num) ∧
      (∀ m1, memb_free m a = some m1 → m1.last < m1.num) ∧
      (0 < m.size → ∃ m1, memb_free m a = some m1 ∧ m1.last < m1.num) ∧
      (memb_inmemb m a).1.last < (memb_inmemb m a).1.num) ∧
    (1 ≤ x.num → x.num < 65536 → x.last < x.num → x.num + 2 ≤ fuel →
      (membx_init fram_alloc err x).1.last < (membx_init fram_alloc err x).1.num ∧
      (∃ x1 r, membx_alloc inv fuel x = some (x1, r) ∧ x1.last < x1.num) ∧
      (∀ x1, membx_free x a = some x1 → x1.last < x1.num) ∧
      (0 < x.size → ∃ x1, membx_free x a = some x1 ∧ x1.last < x1.num) ∧
      (membx_get_next inv fuel x s).1.last < (membx_get_next inv fuel x s).1.num) := by
  constructor
  · intro h1 hn hl hf
    have hfree : ∀ m1, memb_free m a = some m1 → m1.last < m1.num := by
      intro m1 h
      obtain ⟨_, e2, e3, _⟩ := memb_free_frame m m1 a h
      rw [e2, e3]; exact hl
    refine ⟨hl, ?_, hfree, ?_, hl⟩
    · rw [memb_alloc_eq m fuel hn (Nat.le_of_lt hl) hf (Or.inl hl)]
      cases hfc : first_clear m.count m.last m.num with
      | none => exact ⟨_, _, rfl, h1⟩
      | some j =>
        exact ⟨_, _, rfl, (first_clear_some m.count m.last m.num j (Nat.le_of_lt hl) hfc).1⟩
    · intro hs
      obtain ⟨m1, h⟩ := memb_free_returns m a hs
      exact ⟨m1, h, hfree m1 h⟩
  · intro h1 hn hl hf
    have hfree : ∀ x1, membx_free x a = some x1 → x1.last < x1.num := by
      intro x1 h
      obtain ⟨_, e2, e3, _⟩ := membx_free_frame x x1 a h
      rw [e2, e3]; exact hl
    refine ⟨hl, ?_, hfree, ?_, hl⟩
    · rw [membx_alloc_eq inv x fuel hn (Nat.le_of_lt hl) hf (Or.inl hl)]
      cases hfc : first_clear x.count x.last x.num with
      | none => exact ⟨_, _, rfl, h1⟩
      | some j =>
        exact ⟨_, _, rfl, (first_clear_some x.count x.last x.num j (Nat.le_of_lt hl) hfc).1⟩
    · intro hs
      obtain ⟨x1, h⟩ := membx_free_returns x a hs
      exact ⟨x1, h, hfree x1 h⟩

/-- Witness of C13: the full pools pool_full and xpool_full (cursor 2 of 3 blocks) meet
the hypotheses; the failing allocate leaves the cursor at 0. -/
theorem cursor_invariant_witness :
    (memb_alloc 5 pool_full).map (fun p => p.1.last) = some 0 ∧
    (∃ m1 r, memb_alloc 5 pool_full = some (m1, r) ∧ m1.last < m1.num) ∧
    (∃ x1 r, membx_alloc 4294967295 5 xpool_full = some (x1, r) ∧ x1.last < x1.num) :=
  ⟨by decide,
   ((cursor_invariant pool_full xpool_full 4294967295 5 7172 0 (fun _ => 4096)
      4294967295).1 (by decide) (by decide) (by decide) (by decide)).2.1,
   ((cursor_invariant pool_full xpool_full 4294967295 5 7172 0 (fun _ => 4096)
      4294967295).2 (by decide) (by decide) (by decide) (by decide)).2.1⟩

/-- C14: for a pool with size at least 1 and an address or offset a with
base <= a < base + num * size, block-aligned or not, free returns and clears the
occupancy bit of the index (a - base) / size, the block whose extent contains a;
every other occupancy bit and last (as well as size, num and base) stay as they are.
The local memb_free writes the byte whether or not the bit was set. -/
theorem free_clears_containing_block (m : memb) (x : membx) (a : Nat) :
    (0 < m.size → m.num < 65536 → a < 65536 → m.mem ≤ a → a < m.mem + m.num * m.size →
      (a - m.mem) / m.size < m.num ∧
      m.mem + (a - m.mem) / m.size * m.size ≤ a ∧
      a < m.mem + ((a - m.mem) / m.size + 1) * m.size ∧
      memb_free m a = some { m with count := clear_bit m.count ((a - m.mem) / m.size) } ∧
      bit_is_set (clear_bit m.count ((a - m.mem) / m.size)) ((a - m.mem) / m.size) = false ∧
      (∀ k, k ≠ (a - m.mem) / m.size →
        bit_is_set (clear_bit m.count ((a - m.mem) / m.size)) k = bit_is_set m.count k)) ∧
    (0 < x.size → x.num < 65536 → a < 4294967296 → x.mem ≤ a →
      a < x.mem + x.num * x.size →
      (a - x.mem) / x.size < x.num ∧
      x.mem + (a - x.mem) / x.size * x.size ≤ a ∧
      a < x.mem + ((a - x.mem) / x.size + 1) * x.size ∧
      ∃ x1, membx_free x a = some x1 ∧
        bit_is_set x1.count ((a - x.mem) / x.size) = false ∧
        (∀ k, k ≠ (a - x.mem) / x.size → bit_is_set x1.count k = bit_is_set x.count k) ∧
        x1.last = x.last ∧ x1.size = x.size ∧ x1.num = x.num ∧ x1.mem = x.mem) := by
  constructor
  · intro hs hn ha h1 h2
    obtain ⟨hidx, hq⟩ := memb_free_idx_inside m a hs hn ha h1 h2
    obtain ⟨e1, e2⟩ := block_extent a m.mem m.size hs h1
    refine ⟨hq, e1, e2, ?_, bit_clear_after_clear _ _,
      fun k hk => bit_other_after_clear _ _ k hk⟩
    rw [memb_free_eq m a hs, hidx, if_pos hq]
  · intro hs hn ha h1 h2
    obtain ⟨hidx, hq⟩ := membx_free_idx_inside x a hs hn ha h1 h2
    obtain ⟨e1, e2⟩ := block_extent a x.mem x.size hs h1
    refine ⟨hq, e1, e2, ?_⟩
    rw [membx_free_eq x a hs, hidx]
    cases hb : bit_is_set x.count ((a - x.mem) / x.size)
    · refine ⟨x, ?_, hb, fun _ _ => rfl, rfl, rfl, rfl, rfl⟩
      simp
    · refine ⟨{ x with count := clear_bit x.count ((a - x.mem) / x.size),
                       n_alloc := (x.n_alloc + 65535) % 65536 }, ?_,
        bit_clear_after_clear x.count _,
        fun k hk => bit_other_after_clear x.count _ k hk, rfl, rfl, rfl, rfl⟩
      rw [if_pos ⟨hq, rfl⟩]

/-- Witness of C14: the address 7173 and the offset 4101 are not block-aligned and lie in
block 1 of pool_full and of xpool_full; free clears bit 1 and leaves the bits 0
and 2 set. -/
theorem free_clears_containing_block_witness :
    (memb_free pool_full 7173).map
        (fun p => (bit_is_set p.count 0, bit_is_set p.count 1, bit_is_set p.count 2))
      = some (true, false, true) ∧
    memb_free pool_full 7173
      = some { pool_full with
               count := clear_bit pool_full.count ((7173 - pool_full.mem) / pool_full.size) } ∧
    (∃ x1, membx_free xpool_full 4101 = some x1 ∧
        bit_is_set x1.count ((4101 - xpool_full.mem) / xpool_full.size) = false ∧
        (∀ k, k ≠ (4101 - xpool_full.mem) / xpool_full.size →
          bit_is_set x1.count k = bit_is_set xpool_full.count k) ∧
        x1.last = xpool_full.last ∧ x1.size = xpool_full.size ∧ x1.num = xpool_full.num ∧
        x1.mem = xpool_full.mem) :=
  ⟨by decide,
   ((free_clears_containing_block pool_full xpool_full 7173).1 (by decide) (by decide)
      (by decide) (by decide) (by decide)).2.2.2.1,
   ((free_clears_containing_block pool_full xpool_full 4101).2 (by decide) (by decide)
      (by decide) (by decide) (by decide)).2.2.2⟩

/-- C15 (single-block transitions): whenever allocate returns, either it succeeded, and
then exactly one occupancy bit changed, from clear to set, and the address of that
block is returned, or it failed, and then the sentinel is returned and the bitmap is
as before. Whenever free returns, either no occupancy bit changed or exactly one
did, from set to clear. In all cases size, num and base are unchanged, and
membx_get_next changes nothing. Allocate returns for last < num (fuel for num + 2
loop tests) and free returns for size at least 1. -/
theorem single_block_transitions (m : memb) (x : membx) (inv fuel a s : Nat) :
    (∀ m1 r, memb_alloc fuel m = some (m1, r) →
      m1.size = m.size ∧ m1.num = m.num ∧ m1.mem = m.mem ∧
      ((∃ j, bit_is_set m.count j = false ∧ bit_is_set m1.count j = true ∧
          (∀ k, k ≠ j → bit_is_set m1.count k = bit_is_set m.count k) ∧
          r = (m.mem + j * m.size) % 65536) ∨
        (r = NULL ∧ m1.count = m.count))) ∧
    (∀ x1 r, membx_alloc inv fuel x = some (x1, r) →
      x1.size = x.size ∧ x1.num = x.num ∧ x1.mem = x.mem ∧
      ((∃ j, bit_is_set x.count j = false ∧ bit_is_set x1.count j = true ∧
          (∀ k, k ≠ j → bit_is_set x1.count k = bit_is_set x.count k) ∧
          r = (x.mem + j * x.size) % 4294967296) ∨
        (r = inv ∧ x1.count = x.count))) ∧
    (∀ m1, memb_free m a = some m1 →
      m1.size = m.size ∧ m1.num = m.num ∧ m1.mem = m.mem ∧
      ((∀ k, bit_is_set m1.count k = bit_is_set m.count k) ∨
        (∃ j, bit_is_set m.count j = true ∧ bit_is_set m1.count j = false ∧
          ∀ k, k ≠ j → bit_is_set m1.count k = bit_is_set m.count k))) ∧
    (∀ x1, membx_free x a = some x1 →
      x1.size = x.size ∧ x1.num = x.num ∧ x1.mem = x.mem ∧
      ((∀ k, bit_is_set x1.count k = bit_is_set x.count k) ∨
        (∃ j, bit_is_set x.count j = true ∧ bit_is_set x1.count j = false ∧
          ∀ k, k ≠ j → bit_is_set x1.count k = bit_is_set x.count k))) ∧
    (membx_get_next inv fuel x s).1 = x ∧
    (m.num < 65536 → m.last < m.num → m.num + 2 ≤ fuel →
      ∃ m1 r, memb_alloc fuel m = some (m1, r)) ∧
    (x.num < 65536 → x.last < x.num → x.num + 2 ≤ fuel →
      ∃ x1 r, membx_alloc inv fuel x = some (x1, r)) ∧
    (0 < m.size → ∃ m1, memb_free m a = some m1) ∧
    (0 < x.size → ∃ x1, membx_free x a = some x1) := by
  refine ⟨?_, ?_, ?_, ?_, rfl, ?_, ?_, memb_free_returns m a, membx_free_returns x a⟩
  · intro m1 r h
    rcases memb_find_free_outcome m fuel m.last m.num m1 r h with ⟨j, hj, e1, e2⟩ | ⟨e1, e2⟩
    · subst e1
      exact ⟨rfl, rfl, rfl, Or.inl ⟨j, hj, bit_set_after_set _ _,
        fun k hk => bit_other_after_set _ _ k hk, e2⟩⟩
    · subst e1
      exact ⟨rfl, rfl, rfl, Or.inr ⟨e2, rfl⟩⟩
  · intro x1 r h
    rcases membx_find_free_outcome inv x fuel x.last x.num x1 r h with
      ⟨j, hj, e1, e2⟩ | ⟨e1, e2⟩
    · subst e1
      exact ⟨rfl, rfl, rfl, Or.inl ⟨j, hj, bit_set_after_set _ _,
        fun k hk => bit_other_after_set _ _ k hk, e2⟩⟩
    · subst e1
      exact ⟨rfl, rfl, rfl, Or.inr ⟨e2, rfl⟩⟩
  · intro m1 h
    obtain ⟨e1, e2, _, e4, _, hc⟩ := memb_free_frame m m1 a h
    refine ⟨e1, e2, e4, ?_⟩
    rcases hc with hc | ⟨hc, _⟩
    · left; intro k; rw [hc]
    · rw [hc]
      rcases clear_bit_bits m.count (memb_free_idx m a) with h1 | h1
      · exact Or.inl h1
      · exact Or.inr ⟨_, h1⟩
  · intro x1 h
    obtain ⟨e1, e2, _, e4, hc⟩ := membx_free_frame x x1 a h
    refine ⟨e1, e2, e4, ?_⟩
    rcases hc with ⟨hc, _⟩ | ⟨hc, _, hb, _⟩
    · left; intro k; rw [hc]
    · rw [hc]
      exact Or.inr ⟨_, hb, bit_clear_after_clear _ _,
        fun k hk => bit_other_after_clear _ _ k hk⟩
  · intro hn hl hf
    exact ⟨_, _, memb_alloc_eq m fuel hn (Nat.le_of_lt hl) hf (Or.inl hl)⟩
  · intro hn hl hf
    exact ⟨_, _, membx_alloc_eq inv x fuel hn (Nat.le_of_lt hl) hf (Or.inl hl)⟩

/-- Witness of C15: on pool_a and xpool_a (block 1 allocated, cursor 1) allocate returns
and sets bit 2 only; free of block 1 returns. -/
theorem single_block_transitions_witness :
    (memb_alloc 5 pool_a).map
        (fun p => (bit_is_set p.1.count 0, bit_is_set p.1.count 1, bit_is_set p.1.count 2))
      = some (false, true, true) ∧
    (∃ m1 r, memb_alloc 5 pool_a = some (m1, r)) ∧
    (∃ x1 r, membx_alloc 4294967295 5 xpool_a = some (x1, r)) ∧
    (∃ m1, memb_free pool_a 7172 = some m1) ∧
    (∃ x1, membx_free xpool_a 4100 = some x1) :=
  ⟨by decide,
   (single_block_transitions pool_a xpool_a 4294967295 5 7172 0).2.2.2.2.2.1
     (by decide) (by decide) (by decide),
   (single_block_transitions pool_a xpool_a 4294967295 5 7172 0).2.2.2.2.2.2.1
     (by decide) (by decide) (by decide),
   (single_block_transitions pool_a xpool_a 4294967295 5 7172 0).2.2.2.2.2.2.2.1
     (by decide),
   (single_block_transitions pool_a xpool_a 4294967295 5 4100 0).2.2.2.2.2.2.2.2
     (by decide)⟩

/-- C16 (concrete scenario): on a pool with size 4, num 3, last 0 and the occupancy bits
0, 1, 2 clear (the state after init), whose block region lies inside the address
space, three allocate calls return base, base + 4 and base + 8 in this order, the
fourth returns the failure sentinel, freeing base + 4 clears occupancy bit 1 and no
other bit, and the next allocate returns base + 4. Stated for the local and for the
external pool. -/
theorem concrete_scenario (m : memb) (x : membx) (inv fuel : Nat) :
    (m.size = 4 → m.num = 3 → m.last = 0 →
      (∀ k, k < 3 → bit_is_set m.count k = false) → m.mem + 12 ≤ 65536 → 5 ≤ fuel →
      ∃ m1 m2 m3 m4 m5 m6,
        memb_alloc fuel m = some (m1, m.mem) ∧
        memb_alloc fuel m1 = some (m2, m.mem + 4) ∧
        memb_alloc fuel m2 = some (m3, m.mem + 8) ∧
        memb_alloc fuel m3 = some (m4, NULL) ∧
        memb_free m4 (m.mem + 4) = some m5 ∧
        bit_is_set m4.count 1 = true ∧ bit_is_set m5.count 1 = false ∧
        (∀ k, k ≠ 1 → bit_is_set m5.count k = bit_is_set m4.count k) ∧
        memb_alloc fuel m5 = some (m6, m.mem + 4)) ∧
    (x.size = 4 → x.num = 3 → x.last = 0 →
      (∀ k, k < 3 → bit_is_set x.count k = false) → x.mem + 12 ≤ 4294967296 → 5 ≤ fuel →
      ∃ x1 x2 x3 x4 x5 x6,
        membx_alloc inv fuel x = some (x1, x.mem) ∧
        membx_alloc inv fuel x1 = some (x2, x.mem + 4) ∧
        membx_alloc inv fuel x2 = some (x3, x.mem + 8) ∧
        membx_alloc inv fuel x3 = some (x4, inv) ∧
        membx_free x4 (x.mem + 4) = some x5 ∧
        bit_is_set x4.count 1 = true ∧ bit_is_set x5.count 1 = false ∧
        (∀ k, k ≠ 1 → bit_is_set x5.count k = bit_is_set x4.count k) ∧
        membx_alloc inv fuel x5 = some (x6, x.mem + 4)) := by
  constructor
  · obtain ⟨size, num, last, count, mem, data⟩ := m
    intro h1 h2 h3 hclr hfit hf
    simp only at h1 h2 h3 hclr hfit
    subst h1 h2 h3
    have b0 := hclr 0 (by decide)
    have b1 := hclr 1 (by decide)
    have b2 := hclr 2 (by decide)
    have a1 := memb_alloc_at ⟨4, 3, 0, count, mem, data⟩ fuel 0 (by simp) (by simp)
      (by simp; omega) (by simp [(first_clear_three _).1, b0]) (by simp; omega) (by simp)
    have a2 := memb_alloc_at ⟨4, 3, 0, set_bit count 0, mem, data⟩ fuel 1 (by simp)
      (by simp) (by simp; omega)
      (by simp [(first_clear_three _).1, bit_is_set_set_bit, b1]) (by simp; omega) (by simp)
    have a3 := memb_alloc_at ⟨4, 3, 1, set_bit (set_bit count 0) 1, mem, data⟩ fuel 2
      (by simp) (by simp) (by simp; omega)
      (by simp [(first_clear_three _).2.1, bit_is_set_set_bit, b2]) (by simp; omega)
      (by simp)
    have a4 := memb_alloc_full
      ⟨4, 3, 2, set_bit (set_bit (set_bit count 0) 1) 2, mem, data⟩ fuel (by simp)
      (by simp) (by simp; omega)
      (by simp [live_bits, bit_is_set_set_bit])
    have f5 := memb_free_eq
      ⟨4, 3, 0, set_bit (set_bit (set_bit count 0) 1) 2, mem, data⟩ (mem + 4) (by simp)
    have i5 := memb_free_idx_block
      ⟨4, 3, 0, set_bit (set_bit (set_bit count 0) 1) 2, mem, data⟩ 1 (by simp) (by simp)
      (by simp; omega) (by simp)
    simp only [Nat.one_mul] at i5
    rw [i5] at f5
    simp only [show (1 : Nat) < 3 by decide, if_true] at f5
    have a6 := memb_alloc_at
      ⟨4, 3, 0, clear_bit (set_bit (set_bit (set_bit count 0) 1) 2) 1, mem, data⟩ fuel 1
      (by simp) (by simp) (by simp; omega)
      (by simp [(first_clear_three _).1, bit_is_set_set_bit, bit_is_set_clear_bit])
      (by simp; omega) (by simp)
    simp only [Nat.zero_mul, Nat.add_zero, Nat.one_mul] at a1 a2 a3 a6
    refine ⟨_, _, _, _, _, _, a1, a2, a3, a4, f5, ?_, ?_, ?_, a6⟩
    · simp [bit_is_set_set_bit]
    · simp [bit_is_set_clear_bit]
    · intro k hk
      simp [bit_is_set_clear_bit, hk]
  · obtain ⟨size, num, last, n_alloc, count, mem⟩ := x
    intro h1 h2 h3 hclr hfit hf
    simp only at h1 h2 h3 hclr hfit
    subst h1 h2 h3
    have b0 := hclr 0 (by decide)
    have b1 := hclr 1 (by decide)
    have b2 := hclr 2 (by decide)
    have a1 := membx_alloc_at inv ⟨4, 3, 0, n_alloc, count, mem⟩ fuel 0 (by simp) (by simp)
      (by simp; omega) (by simp [(first_clear_three _).1, b0]) (by simp; omega) (by simp)
    have a2 := membx_alloc_at inv ⟨4, 3, 0, (n_alloc + 1) % 65536, set_bit count 0, mem⟩
      fuel 1 (by simp) (by simp) (by simp; omega)
      (by simp [(first_clear_three _).1, bit_is_set_set_bit, b1]) (by simp; omega) (by simp)
    have a3 := membx_alloc_at inv
      ⟨4, 3, 1, ((n_alloc + 1) % 65536 + 1) % 65536, set_bit (set_bit count 0) 1, mem⟩
      fuel 2 (by simp) (by simp) (by simp; omega)
      (by simp [(first_clear_three _).2.1, bit_is_set_set_bit, b2]) (by simp; omega)
      (by simp)
    have a4 := membx_alloc_full inv
      ⟨4, 3, 2, (((n_alloc + 1) % 65536 + 1) % 65536 + 1) % 65536,
        set_bit (set_bit (set_bit count 0) 1) 2, mem⟩ fuel (by simp)
      (by simp) (by simp; omega)
      (by simp [live_bits, bit_is_set_set_bit])
    have f5 := membx_free_eq
      ⟨4, 3, 0, (((n_alloc + 1) % 65536 + 1) % 65536 + 1) % 65536,
        set_bit (set_bit (set_bit count 0) 1) 2, mem⟩ (mem + 4) (by simp)
    have i5 := membx_free_idx_block
      ⟨4, 3, 0, (((n_alloc + 1) % 65536 + 1) % 65536 + 1) % 65536,
        set_bit (set_bit (set_bit count 0) 1) 2, mem⟩ 1 (by simp) (by simp) (by simp)
      (by simp)
    simp only [Nat.one_mul] at i5
    rw [Nat.mod_eq_of_lt (show mem + 4 < 4294967296 by omega)] at i5
    rw [i5] at f5
    simp only [show (1 : Nat) < 3 by decide, bit_is_set_set_bit, decide_True, Bool.true_or,
      Bool.or_true, and_self, if_true] at f5
    have a6 := membx_alloc_at inv
      ⟨4, 3, 0, ((((n_alloc + 1) % 65536 + 1) % 65536 + 1) % 65536 + 65535) % 65536,
        clear_bit (set_bit (set_bit (set_bit count 0) 1) 2) 1, mem⟩ fuel 1
      (by simp) (by simp) (by simp; omega)
      (by simp [(first_clear_three _).1, bit_is_set_set_bit, bit_is_set_clear_bit])
      (by simp; omega) (by simp)
    simp only [Nat.zero_mul, Nat.add_zero, Nat.one_mul] at a1 a2 a3 a6
    refine ⟨_, _, _, _, _, _, a1, a2, a3, a4, f5, ?_, ?_, ?_, a6⟩
    · simp [bit_is_set_set_bit]
    · simp [bit_is_set_clear_bit]
    · intro k hk
      simp [bit_is_set_clear_bit, hk]

/-- Witness of C16: memb_init and membx_init (the reservation returning offset 4096) turn
pool_c and xpool_c into pools that meet the hypotheses; the calls return 7168, 7172,
7176, NULL and, after freeing 7172, again 7172 (4096, 4100, 4104, the sentinel and
4100 for the external pool). -/
theorem concrete_scenario_witness :
    (memb_alloc_seq 5 4 (memb_init pool_c)).map Prod.snd = some [7168, 7172, 7176, NULL] ∧
    (membx_alloc_seq 4294967295 5 4 (membx_init (fun _ => 4096) 4294967295 xpool_c).1).map
      Prod.snd = some [4096, 4100, 4104, 4294967295] ∧
    (∃ m1, memb_alloc 5 (memb_init pool_c) = some (m1, (memb_init pool_c).mem)) ∧
    (∃ x1, membx_alloc 4294967295 5 (membx_init (fun _ => 4096) 4294967295 xpool_c).1
      = some (x1, (membx_init (fun _ => 4096) 4294967295 xpool_c).1.mem)) := by
  have h := concrete_scenario (memb_init pool_c)
    (membx_init (fun _ => 4096) 4294967295 xpool_c).1 4294967295 5
  obtain ⟨m1, _, _, _, _, _, h1, _⟩ :=
    h.1 (by decide) (by decide) (by decide) (by decide) (by decide) (by decide)
  obtain ⟨x1, _, _, _, _, _, h2, _⟩ :=
    h.2 (by decide) (by decide) (by decide) (by decide) (by decide) (by decide)
  exact ⟨by decide, by decide, ⟨m1, h1⟩, ⟨x1, h2⟩⟩

/-- C17: a local and an external pool with the same occupancy bitmap, the same num and the
same last < num run the same search: memb_alloc and membx_alloc both return (given
fuel for num + 2 loop tests), with the same resulting bitmap and the same resulting
last, and either both fail (sentinel returned, bitmap untouched, n_alloc untouched)
or both choose the same block index j; they differ in the address domain of the
result and in the increment of n_alloc only. -/
theorem allocators_run_same_search (m : memb) (x : membx) (inv fuel : Nat)
    (hc : m.count = x.count) (hnum : m.num = x.num) (hlast : m.last = x.last)
    (hn : m.num < 65536) (hl : m.last < m.num) (hf : m.num + 2 ≤ fuel) :
    ∃ m1 r1 x1 r2, memb_alloc fuel m = some (m1, r1) ∧
      membx_alloc inv fuel x = some (x1, r2) ∧
      m1.count = x1.count ∧ m1.last = x1.last ∧ m1.num = x1.num ∧
      ((r1 = NULL ∧ r2 = inv ∧ m1.count = m.count ∧ m1.last = 0 ∧
          x1.n_alloc = x.n_alloc) ∨
        (∃ j, j < m.num ∧ first_clear m.count m.last m.num = some j ∧
          m1.count = set_bit m.count j ∧ m1.last = j ∧
          r1 = (m.mem + j * m.size) % 65536 ∧ r2 = (x.mem + j * x.size) % 4294967296 ∧
          x1.n_alloc = (x.n_alloc + 1) % 65536)) := by
  have hxn : x.num < 65536 := by rw [← hnum]; exact hn
  have hxl : x.last < x.num := by rw [← hnum, ← hlast]; exact hl
  have hxf : x.num + 2 ≤ fuel := by rw [← hnum]; exact hf
  have e1 := memb_alloc_eq m fuel hn (Nat.le_of_lt hl) hf (Or.inl hl)
  have e2 := membx_alloc_eq inv x fuel hxn (Nat.le_of_lt hxl) hxf (Or.inl hxl)
  rw [← hc, ← hnum, ← hlast] at e2
  cases hfc : first_clear m.count m.last m.num with
  | none =>
    rw [hfc] at e1 e2
    exact ⟨_, _, _, _, e1, e2, hc, rfl, hnum, Or.inl ⟨rfl, rfl, rfl, rfl, rfl⟩⟩
  | some j =>
    rw [hfc] at e1 e2
    have hj := (first_clear_some m.count m.last m.num j (Nat.le_of_lt hl) hfc).1
    refine ⟨_, _, _, _, e1, e2, ?_, rfl, hnum, Or.inr ⟨j, hj, rfl, rfl, rfl, ?_, ?_, rfl⟩⟩
    · show set_bit m.count j = set_bit x.count j
      rw [hc]
    · exact addr16_eq _ _ _
    · exact addr32_eq _ _ _

/-- Witness of C17: pool_a and xpool_a share bitmap, num and last; both allocators choose
block 2 (addresses 7176 and 4104). -/
theorem allocators_run_same_search_witness :
    (memb_alloc 5 pool_a).map Prod.snd = some 7176 ∧
    (membx_alloc 4294967295 5 xpool_a).map Prod.snd = some 4104 ∧
    (∃ m1 r1 x1 r2, memb_alloc 5 pool_a = some (m1, r1) ∧
      membx_alloc 4294967295 5 xpool_a = some (x1, r2) ∧
      m1.count = x1.count ∧ m1.last = x1.last ∧ m1.num = x1.num) := by
  obtain ⟨m1, r1, x1, r2, h1, h2, h3, h4, h5, _⟩ :=
    allocators_run_same_search pool_a xpool_a 4294967295 5 rfl rfl rfl (by decide)
      (by decide) (by decide)
  exact ⟨by decide, by decide, m1, r1, x1, r2, h1, h2, h3, h4, h5⟩

/-- C18 (bounded scans): for a pool with num at least 1 and last < num, allocate returns
after testing at most num occupancy bits, each index below num and no index twice
across its two phases; for an external pool with num at least 1 and any start index,
membx_get_next returns after testing at most num occupancy bits, no index twice.
The tested indices are those recorded by the logged loops, whose results are the
results of the functions themselves. -/
theorem scans_are_bounded (m : memb) (x : membx) (inv fuel start : Nat) :
    (1 ≤ m.num → m.num < 65536 → m.last < m.num → m.num + 2 ≤ fuel →
      ∃ res t, memb_alloc_log fuel m = some (res, t) ∧ memb_alloc fuel m = some res ∧
        t.length ≤ m.num ∧ t.Nodup ∧ ∀ k, k ∈ t → k < m.num) ∧
    (1 ≤ x.num → x.num < 65536 → x.last < x.num → x.num + 2 ≤ fuel →
      ∃ res t, membx_alloc_log inv fuel x = some (res, t) ∧
        membx_alloc inv fuel x = some res ∧
        t.length ≤ x.num ∧ t.Nodup ∧ ∀ k, k ∈ t → k < x.num) ∧
    (1 ≤ x.num → x.num < 65536 → x.num ≤ fuel →
      ∃ r t, membx_get_next_log inv fuel x start = some (r, t) ∧
        (membx_get_next inv fuel x start).2 = some r ∧
        t.length ≤ x.num ∧ t.Nodup ∧ ∀ k, k ∈ t → k < x.num) := by
  refine ⟨?_, ?_, ?_⟩
  · intro _ hn hl hf
    obtain ⟨res, t, h1, h2, hp⟩ := memb_alloc_log_bounds m fuel hn hl hf
    exact ⟨res, t, h1, h2, prefix_circ_order_bounds t _ _ (Nat.le_of_lt hl) hp⟩
  · intro _ hn hl hf
    obtain ⟨res, t, h1, h2, hp⟩ := membx_alloc_log_bounds inv x fuel hn hl hf
    exact ⟨res, t, h1, h2, prefix_circ_order_bounds t _ _ (Nat.le_of_lt hl) hp⟩
  · intro h1 hn hf
    obtain ⟨r, t, h2, h3, hp⟩ := membx_get_next_log_bounds inv fuel x start h1 hn hf
    have hs : (if start < x.num then start else 0) ≤ x.num := by
      split <;> omega
    exact ⟨r, t, h2, h3, prefix_circ_order_bounds t _ _ hs hp⟩

/-- Witness of C18: on the full pool pool_full (cursor 2) allocate tests the indices 2, 0,
1; on xpool_b (blocks 2, 5, 7 of ten allocated) membx_get_next from start index 8
tests 8, 9, 0, 1, 2. -/
theorem scans_are_bounded_witness :
    (memb_alloc_log 5 pool_full).map Prod.snd = some [2, 0, 1] ∧
    (membx_get_next_log 4294967295 10 xpool_b 8).map Prod.snd = some [8, 9, 0, 1, 2] ∧
    (∃ res t, memb_alloc_log 5 pool_full = some (res, t) ∧
      memb_alloc 5 pool_full = some res ∧
      t.length ≤ pool_full.num ∧ t.Nodup ∧ ∀ k, k ∈ t → k < pool_full.num) ∧
    (∃ res t, membx_alloc_log 4294967295 5 xpool_full = some (res, t) ∧
      membx_alloc 4294967295 5 xpool_full = some res ∧
      t.length ≤ xpool_full.num ∧ t.Nodup ∧ ∀ k, k ∈ t → k < xpool_full.num) ∧
    (∃ r t, membx_get_next_log 4294967295 10 xpool_b 8 = some (r, t) ∧
      (membx_get_next 4294967295 10 xpool_b 8).2 = some r ∧
      t.length ≤ xpool_b.num ∧ t.Nodup ∧ ∀ k, k ∈ t → k < xpool_b.num) :=
  ⟨by decide, by decide,
   (scans_are_bounded pool_full xpool_full 4294967295 5 8).1 (by decide) (by decide)
     (by decide) (by decide),
   (scans_are_bounded pool_full xpool_full 4294967295 5 8).2.1 (by decide) (by decide)
     (by decide) (by decide),
   (scans_are_bounded pool_full xpool_b 4294967295 10 8).2.2 (by decide) (by decide)
     (by decide)⟩

/-- C19 (allocate, then free): for a pool with size at least 1, last < num and a block
region that does not overflow the address type, a successful allocate returns the
address a = base + j * size of the block j it chose; the index free computes from a
is j again, and free with a directly afterwards restores every occupancy bit (and
the bitmap bytes themselves, these being char values) and, for the external pool,
n_alloc. Allocate succeeds when a bit below num is clear, and every call that
returns something other than the failure sentinel is such a success. -/
theorem alloc_then_free_restores (m : memb) (x : membx) (inv fuel : Nat) :
    (0 < m.size → m.num < 65536 → m.last < m.num → m.mem + m.num * m.size < 65536 →
      m.num + 2 ≤ fuel →
      ((∃ k, k < m.num ∧ bit_is_set m.count k = false) →
        ∃ j m1 m2, j < m.num ∧ memb_alloc fuel m = some (m1, m.mem + j * m.size) ∧
          memb_free_idx m1 (m.mem + j * m.size) = j ∧
          memb_free m1 (m.mem + j * m.size) = some m2 ∧
          (∀ k, bit_is_set m2.count k = bit_is_set m.count k) ∧
          ((∀ b, m.count b < 256) → m2.count = m.count)) ∧
      (∀ m1 a, memb_alloc fuel m = some (m1, a) → a ≠ NULL →
        ∃ m2, memb_free m1 a = some m2 ∧
          (∀ k, bit_is_set m2.count k = bit_is_set m.count k) ∧
          ((∀ b, m.count b < 256) → m2.count = m.count))) ∧
    (0 < x.size → x.size < 65536 → x.num < 65536 → x.last < x.num →
      x.mem + x.num * x.size < 4294967296 → x.num + 2 ≤ fuel →
      ((∃ k, k < x.num ∧ bit_is_set x.count k = false) →
        ∃ j x1 x2, j < x.num ∧ membx_alloc inv fuel x = some (x1, x.mem + j * x.size) ∧
          membx_free_idx x1 (x.mem + j * x.size) = j ∧
          membx_free x1 (x.mem + j * x.size) = some x2 ∧
          (∀ k, bit_is_set x2.count k = bit_is_set x.count k) ∧
          ((∀ b, x.count b < 256) → x2.count = x.count) ∧
          (x.n_alloc < 65536 → x2.n_alloc = x.n_alloc)) ∧
      (∀ x1 a, membx_alloc inv fuel x = some (x1, a) → a ≠ inv →
        ∃ x2, membx_free x1 a = some x2 ∧
          (∀ k, bit_is_set x2.count k = bit_is_set x.count k) ∧
          ((∀ b, x.count b < 256) → x2.count = x.count) ∧
          (x.n_alloc < 65536 → x2.n_alloc = x.n_alloc))) := by
  constructor
  · intro hs hn hl hfit hf
    constructor
    · intro hc
      obtain ⟨j, hj⟩ := first_clear_isSome m.count m.last m.num (Nat.le_of_lt hl) hc
      obtain ⟨m1, m2, h⟩ := memb_round_trip m fuel j hs hn hl hfit hf hj
      exact ⟨j, m1, m2, h⟩
    · intro m1 a h hne
      have he := memb_alloc_eq m fuel hn (Nat.le_of_lt hl) hf (Or.inl hl)
      cases hfc : first_clear m.count m.last m.num with
      | none =>
        rw [hfc, h] at he
        have := congrArg Prod.snd (Option.some.inj he)
        exact absurd this hne
      | some j =>
        obtain ⟨m1', m2, _, ha, _, hfree, hb1, hb2⟩ :=
          memb_round_trip m fuel j hs hn hl hfit hf hfc
        rw [h] at ha
        have e := Option.some.inj ha
        have e1 : m1 = m1' := congrArg Prod.fst e
        have e2 : a = m.mem + j * m.size := congrArg Prod.snd e
        rw [e1, e2]
        exact ⟨m2, hfree, hb1, hb2⟩
  · intro hs hsz hn hl hfit hf
    constructor
    · intro hc
      obtain ⟨j, hj⟩ := first_clear_isSome x.count x.last x.num (Nat.le_of_lt hl) hc
      obtain ⟨x1, x2, h⟩ := membx_round_trip inv x fuel j hs hsz hn hl hfit hf hj
      exact ⟨j, x1, x2, h⟩
    · intro x1 a h hne
      have he := membx_alloc_eq inv x fuel hn (Nat.le_of_lt hl) hf (Or.inl hl)
      cases hfc : first_clear x.count x.last x.num with
      | none =>
        rw [hfc, h] at he
        have := congrArg Prod.snd (Option.some.inj he)
        exact absurd this hne
      | some j =>
        obtain ⟨x1', x2, _, ha, _, hfree, hb1, hb2, hb3⟩ :=
          membx_round_trip inv x fuel j hs hsz hn hl hfit hf hfc
        rw [h] at ha
        have e := Option.some.inj ha
        have e1 : x1 = x1' := congrArg Prod.fst e
        have e2 : a = x.mem + j * x.size := congrArg Prod.snd e
        rw [e1, e2]
        exact ⟨x2, hfree, hb1, hb2, hb3⟩

/-- Witness of C19: on pool_a and xpool_a (block 1 allocated, cursor 1) allocate hands out
block 2 at 7176 and at 4104; freeing it again leaves block 1 as the only allocated
block and n_alloc at 1. -/
theorem alloc_then_free_restores_witness :
    ((memb_alloc 5 pool_a).bind (fun p => memb_free p.1 p.2)).map
        (fun p => (bit_is_set p.count 0, bit_is_set p.count 1, bit_is_set p.count 2))
      = some (false, true, false) ∧
    ((membx_alloc 4294967295 5 xpool_a).bind (fun p => membx_free p.1 p.2)).map
        (fun p => p.n_alloc) = some 1 ∧
    (∃ j m1 m2, j < pool_a.num ∧
      memb_alloc 5 pool_a = some (m1, pool_a.mem + j * pool_a.size) ∧
      memb_free_idx m1 (pool_a.mem + j * pool_a.size) = j ∧
      memb_free m1 (pool_a.mem + j * pool_a.size) = some m2 ∧
      (∀ k, bit_is_set m2.count k = bit_is_set pool_a.count k) ∧
      ((∀ b, pool_a.count b < 256) → m2.count = pool_a.count)) ∧
    (∃ j x1 x2, j < xpool_a.num ∧
      membx_alloc 4294967295 5 xpool_a = some (x1, xpool_a.mem + j * xpool_a.size) ∧
      membx_free_idx x1 (xpool_a.mem + j * xpool_a.size) = j ∧
      membx_free x1 (xpool_a.mem + j * xpool_a.size) = some x2 ∧
      (∀ k, bit_is_set x2.count k = bit_is_set xpool_a.count k) ∧
      ((∀ b, xpool_a.count b < 256) → x2.count = xpool_a.count) ∧
      (xpool_a.n_alloc < 65536 → x2.n_alloc = xpool_a.n_alloc)) :=
  ⟨by decide, by decide,
   ((alloc_then_free_restores pool_a xpool_a 4294967295 5).1 (by decide) (by decide)
      (by decide) (by decide) (by decide)).1 ⟨2, by decide, by decide⟩,
   ((alloc_then_free_restores pool_a xpool_a 4294967295 5).2 (by decide) (by decide)
      (by decide) (by decide) (by decide) (by decide)).1 ⟨2, by decide, by decide⟩⟩

/-- C20: for a local pool with size at least 1, last < num and a block region inside the
address space, memb_alloc returns (given fuel for num + 2 loop tests), and when the
address a it returns is not NULL, memb_inmemb is true for a (on the pool before and
after the call) and a is block-aligned: a - base is a multiple of size. -/
theorem memb_alloc_result_in_pool (m : memb) (fuel : Nat) (hs : 0 < m.size)
    (hn : m.num < 65536) (hl : m.last < m.num) (hfit : m.mem + m.num * m.size < 65536)
    (hf : m.num + 2 ≤ fuel) :
    ∃ m1 a, memb_alloc fuel m = some (m1, a) ∧
      (a ≠ NULL →
        (memb_inmemb m a).2 = true ∧ (memb_inmemb m1 a).2 = true ∧
        m.mem ≤ a ∧ m.size ∣ (a - m.mem) ∧ (a - m.mem) / m.size < m.num) := by
  cases hfc : first_clear m.count m.last m.num with
  | none =>
    refine ⟨{ m with last := 0 }, NULL, ?_, ?_⟩
    · rw [memb_alloc_eq m fuel hn (Nat.le_of_lt hl) hf (Or.inl hl), hfc]
      rfl
    · intro h; exact absurd rfl h
  | some j =>
    have hj := (first_clear_some m.count m.last m.num j (Nat.le_of_lt hl) hfc).1
    have ha := memb_alloc_at m fuel j hn hl hf hfc (by omega) hs
    have hlt : j * m.size < m.num * m.size := Nat.mul_lt_mul_of_pos_right hj hs
    have hin : m.mem ≤ m.mem + j * m.size ∧ m.mem + j * m.size < m.mem + m.num * m.size :=
      ⟨by omega, by omega⟩
    have hsub : m.mem + j * m.size - m.mem = j * m.size := by omega
    refine ⟨_, _, ha, fun _ => ⟨?_, ?_, hin.1, ?_, ?_⟩⟩
    · exact (memb_inmemb_true_iff m _ hfit).2 hin
    · exact (memb_inmemb_true_iff { m with count := set_bit m.count j, last := j } _ hfit).2
        hin
    · rw [hsub]; exact Nat.dvd_mul_left _ _
    · rw [hsub, Nat.mul_div_cancel j hs]; exact hj

/-- Witness of C20: pool_a meets the hypotheses; memb_alloc returns 7176, which lies in
the pool region [7168, 7180) and is 8 = 2 * 4 bytes above its base. -/
theorem memb_alloc_result_in_pool_witness :
    (memb_alloc 5 pool_a).map Prod.snd = some 7176 ∧ (memb_inmemb pool_a 7176).2 = true ∧
    (∃ m1 a, memb_alloc 5 pool_a = some (m1, a) ∧
      (a ≠ NULL →
        (memb_inmemb pool_a a).2 = true ∧ (memb_inmemb m1 a).2 = true ∧
        pool_a.mem ≤ a ∧ pool_a.size ∣ (a - pool_a.mem) ∧
        (a - pool_a.mem) / pool_a.size < pool_a.num)) :=
  ⟨by decide, by decide,
   memb_alloc_result_in_pool pool_a 5 (by decide) (by decide) (by decide) (by decide)
     (by decide)⟩

/-- C21 (bitmap accesses in bounds): for a pool with num and size at least 1 and
last < num, every bitmap byte index i >> 3 read or written by allocate, by free with
any argument and by membx_get_next with any start index is below (num + 7) / 8, the
number ceil(num / 8) of bitmap bytes; these are the bytes init sets to zero (the
length init passes to memset is a 16-bit value, equal to ceil(num / 8) for num up
to 65528). The touched indices are those recorded by the logged functions, whose
results are the results of the functions themselves. -/
theorem bitmap_accesses_in_bounds (m : memb) (x : membx) (inv fuel a start : Nat)
    (fram_alloc : Nat → Nat) (err : Nat) :
    (1 ≤ m.num → m.num < 65536 → 1 ≤ m.size → m.last < m.num → m.num + 2 ≤ fuel →
      (∃ res t, memb_alloc_log fuel m = some (res, t) ∧ memb_alloc fuel m = some res ∧
        ∀ k, k ∈ t → k >>> 3 < (m.num + 7) / 8) ∧
      (∃ m1 t, memb_free_log m a = some (m1, t) ∧ memb_free m a = some m1 ∧
        ∀ k, k ∈ t → k >>> 3 < (m.num + 7) / 8) ∧
      (m.num + 7 < 65536 →
        ∀ b, (memb_init m).count b = if b < (m.num + 7) / 8 then 0 else m.count b)) ∧
    (1 ≤ x.num → x.num < 65536 → 1 ≤ x.size → x.last < x.num → x.num + 2 ≤ fuel →
      (∃ res t, membx_alloc_log inv fuel x = some (res, t) ∧
        membx_alloc inv fuel x = some res ∧
        ∀ k, k ∈ t → k >>> 3 < (x.num + 7) / 8) ∧
      (∃ x1 t, membx_free_log x a = some (x1, t) ∧ membx_free x a = some x1 ∧
        ∀ k, k ∈ t → k >>> 3 < (x.num + 7) / 8) ∧
      (∃ r t, membx_get_next_log inv fuel x start = some (r, t) ∧
        (membx_get_next inv fuel x start).2 = some r ∧
        ∀ k, k ∈ t → k >>> 3 < (x.num + 7) / 8) ∧
      (x.num + 7 < 65536 →
        ∀ b, (membx_init fram_alloc err x).1.count b
          = if b < (x.num + 7) / 8 then 0 else x.count b)) := by
  constructor
  · intro _ hn hs hl hf
    refine ⟨?_, ?_, ?_⟩
    · obtain ⟨res, t, h1, h2, hp⟩ := memb_alloc_log_bounds m fuel hn hl hf
      have hb := (prefix_circ_order_bounds t _ _ (Nat.le_of_lt hl) hp).2.2
      exact ⟨res, t, h1, h2, fun k hk => byte_index_lt k m.num (hb k hk)⟩
    · obtain ⟨m1, t, h1, h2, hb⟩ := memb_free_log_eq m a hs
      exact ⟨m1, t, h1, h2, fun k hk => byte_index_lt k m.num (hb k hk)⟩
    · intro h7 b
      show memset0 m.count (((m.num + 7) % 65536) >>> 3) b = _
      rw [init_length_eq m.num h7]
      rfl
  · intro h1 hn hs hl hf
    refine ⟨?_, ?_, ?_, ?_⟩
    · obtain ⟨res, t, h1, h2, hp⟩ := membx_alloc_log_bounds inv x fuel hn hl hf
      have hb := (prefix_circ_order_bounds t _ _ (Nat.le_of_lt hl) hp).2.2
      exact ⟨res, t, h1, h2, fun k hk => byte_index_lt k x.num (hb k hk)⟩
    · obtain ⟨x1, t, h1, h2, hb⟩ := membx_free_log_eq x a hs
      exact ⟨x1, t, h1, h2, fun k hk => byte_index_lt k x.num (hb k hk)⟩
    · obtain ⟨r, t, h2, h3, hp⟩ :=
        membx_get_next_log_bounds inv fuel x start h1 hn (by omega)
      have hsn : (if start < x.num then start else 0) ≤ x.num := by
        split <;> omega
      have hb := (prefix_circ_order_bounds t _ _ hsn hp).2.2
      exact ⟨r, t, h2, h3, fun k hk => byte_index_lt k x.num (hb k hk)⟩
    · intro h7 b
      show memset0 x.count (((x.num + 7) % 65536) >>> 3) b = _
      rw [init_length_eq x.num h7]
      rfl

/-- Witness of C21: xpool_b has ten blocks, hence two bitmap bytes; membx_get_next from
start index 8 touches the bytes 1, 1, 0, 0, 0, freeing the offset 4128 of block 8
touches byte 1, and a free outside the pool touches no byte. -/
theorem bitmap_accesses_in_bounds_witness :
    (membx_get_next_log 4294967295 12 xpool_b 8).map (fun p => p.2.map (fun k => k >>> 3))
      = some [1, 1, 0, 0, 0] ∧
    (membx_free_log xpool_b 4128).map Prod.snd = some [8] ∧
    (membx_free_log xpool_b 5000).map Prod.snd = some [] ∧
    (memb_free_log pool_a 7173).map Prod.snd = some [1] ∧
    (∃ res t, memb_alloc_log 12 pool_a = some (res, t) ∧ memb_alloc 12 pool_a = some res ∧
      ∀ k, k ∈ t → k >>> 3 < (pool_a.num + 7) / 8) ∧
    (∃ r t, membx_get_next_log 4294967295 12 xpool_b 8 = some (r, t) ∧
      (membx_get_next 4294967295 12 xpool_b 8).2 = some r ∧
      ∀ k, k ∈ t → k >>> 3 < (xpool_b.num + 7) / 8) :=
  ⟨by decide, by decide, by decide, by decide,
   ((bitmap_accesses_in_bounds pool_a xpool_b 4294967295 12 7173 8 (fun _ => 4096)
      4294967295).1 (by decide) (by decide) (by decide) (by decide) (by decide)).1,
   ((bitmap_accesses_in_bounds pool_a xpool_b 4294967295 12 7173 8 (fun _ => 4096)
      4294967295).2 (by decide) (by decide) (by decide) (by decide) (by decide)).2.2.1⟩

end LWB
